import Mathlib

/-!
# Verification of the wordle solver engine (`src/wordle.py`)

A shallow embedding of the constraint/search engine of the wordle solver:
the constraint `State` (per-position candidate-letter sets plus per-letter
minimum occurrence counts), the feedback oracle `get_test_response`, the
response parser `parse`, the candidate filter `filter_words`/`satisfied`,
the state `merge`, the guess ranker `rank_word`/`rank_words` with its
sampling heuristic and deterministic per-guess `shuffle`, the selector
`choose_word`, the "not a word" dictionary-shrinkage step of `play`, and
the optimal-strategy search `dive`/`compute_optimal`.

Modelling conventions:
* Python strings become `List Char`; words are uppercase `A`-`Z` strings.
* Python `dict`s become insertion-ordered association lists
  (`aset` is `d[k] = v`: it replaces the value of the first matching key in
  place, keeping its position, and appends fresh keys at the end;
  `alookup` is `d.get(k)`).
* Python `set`s of letters become `Finset Char`.
* Mutation is rendered by explicit state passing: every method that mutates
  a `State` in the source returns the updated `State` here.
* We model the plain-text response encoding (`no_emoji = True`: marks
  `g`/`y`/`b`); the parser additionally recognises the emoji marks exactly
  as the source does.  `quiet`/printing parameters are dropped: they only
  affect output, never the returned values.
-/

namespace Wordle

/-! ## Constants (from the top of `wordle.py`) -/

def TOP_CHOICES_COUNT : ℕ := 5
def RANK_PRECISION : ℕ := 4
def RANK_HEURISTIC_MIN_COUNT : ℕ := 100
def RANK_HEURISTIC_NO_CHANGE_COUNT : ℕ := 10
def RANK_HEURISTIC_TRY_TO_WIN_COUNT : ℕ := 10

def RESPONSE_WRONG : Char := 'b'
def RESPONSE_CLOSE : Char := 'y'
def RESPONSE_RIGHT : Char := 'g'

def RESPONSE_WRONG_EMOJI : Char := '⬛'
def RESPONSE_CLOSE_EMOJI : Char := '🟨'
def RESPONSE_RIGHT_EMOJI : Char := '🟩'

/-- Source `string.ascii_uppercase` as a `Finset`: the alphabet every position of a
fresh `State` allows. -/
def ascii_uppercase : Finset Char :=
  ("ABCDEFGHIJKLMNOPQRSTUVWXYZ").toList.toFinset

/-! ## Python dictionaries as insertion-ordered association lists -/

/-- Source `d.get(k)` on a Python dict: value of the first entry with key `k`. -/
def alookup {α β : Type} [DecidableEq α] (l : List (α × β)) (k : α) : Option β :=
  (l.find? (fun p => decide (p.1 = k))).map (fun p => p.2)

/-- Source `d[k] = v` on a Python dict: replace the value at the first entry with
key `k` (keeping its position), or append a fresh entry at the end. -/
def aset {α β : Type} [DecidableEq α] : List (α × β) → α → β → List (α × β)
  | [], k, v => [(k, v)]
  | (k0, v0) :: rest, k, v =>
    if k0 = k then (k0, v) :: rest else (k0, v0) :: aset rest k v

/-- Source `d.get(k, 0)` for the `required` counters. -/
def getD0 (l : List (Char × ℕ)) (c : Char) : ℕ := (alookup l c).getD 0

/-! ## The constraint `State` -/

/-- The accumulated-knowledge state (`class State`):
`required` maps a letter to its minimum occurrence count, `spots` holds the
still-allowed letters of each position. -/
structure State where
  word_length : ℕ
  required : List (Char × ℕ)
  spots : List (Finset Char)

/-- Source `State.__init__`: every position allows the full uppercase alphabet and
nothing is required. -/
def State.new (word_length : ℕ) : State :=
  ⟨word_length, [], List.replicate word_length ascii_uppercase⟩

/-- Source `State.fill`: raise each of `other`'s required counts into `self` by
maximum, and intersect the spot sets position by position. -/
def State.fill (self other : State) : State :=
  { self with
    required :=
      other.required.foldl (fun req p => aset req p.1 (max (getD0 req p.1) p.2))
        self.required
    spots := self.spots.zipWith (fun s o => s ∩ o) other.spots }

/-- Source `State.mark_wrong`: remove `letter` from position `index` only. -/
def State.mark_wrong (s : State) (letter : Char) (index : ℕ) : State :=
  { s with spots := s.spots.set index ((s.spots.getD index ∅).erase letter) }

/-- Source `State.mark_close`: remove `letter` from position `index` and raise its
required count by one. -/
def State.mark_close (s : State) (letter : Char) (index : ℕ) : State :=
  { s with
    required := aset s.required letter (getD0 s.required letter + 1)
    spots := s.spots.set index ((s.spots.getD index ∅).erase letter) }

/-- Source `State.mark_right`: collapse position `index` to exactly `letter` and
raise its required count by one. -/
def State.mark_right (s : State) (letter : Char) (index : ℕ) : State :=
  { s with
    required := aset s.required letter (getD0 s.required letter + 1)
    spots := s.spots.set index {letter} }

/-- Source `State.mark_wrong_everywhere`: remove `letter` from every position whose
spot set still has more than one candidate. -/
def State.mark_wrong_everywhere (s : State) (letter : Char) : State :=
  { s with
    spots := s.spots.map (fun spot => if 1 < spot.card then spot.erase letter else spot) }

/-- Source `merge(current_info, new_info)`: build a fresh full-alphabet state and
fill it with both inputs in turn.  (The source mutates only the fresh state;
in this pure rendering the inputs are unchanged by construction.) -/
def merge (current_info new_info : State) : State :=
  ((State.new current_info.word_length).fill current_info).fill new_info

/-! ## The feedback oracle `get_test_response`

The source runs three in-place passes over `guess_list`/`test_list`,
blanking consumed cells with `''`:
1. exact pass: positions with `guess[i] == test[i]` are marked right and
   both cells are blanked;
2. presence pass: each remaining guess letter consumes the first remaining
   occurrence of itself in the target (marked close);
3. the leftover guess positions are marked wrong.

Pass 1 touches each index independently, so it is rendered by the
`initialRem` map over the zipped word pair (a blanked target cell is
`none`).  Passes 2 and 3 walk the positions left to right threading the
remaining-target list, which `scorePairs` does; a position with
`guess[i] == test[i]` was blanked by pass 1, so `scorePairs` emits its
right mark there and consumes nothing. -/

/-- Source `test_list.index(c)` followed by blanking that cell, on the
remaining-target list: remove the first live occurrence of `c` (`none` if
`c` no longer occurs). -/
def removeFirst (c : Char) : List (Option Char) → Option (List (Option Char))
  | [] => none
  | some t :: rest =>
    if t = c then some (none :: rest)
    else (removeFirst c rest).map (fun r => some t :: r)
  | none :: rest => (removeFirst c rest).map (fun r => none :: r)

/-- Remaining target cells after the exact pass: exact positions are
blanked. -/
def initialRem (pairs : List (Char × Char)) : List (Option Char) :=
  pairs.map (fun p => if p.1 = p.2 then none else some p.2)

/-- Presence/wrong passes over the zipped guess/target positions, threading
the remaining-target cells. -/
def scorePairs : List (Char × Char) → List (Option Char) → List Char
  | [], _ => []
  | (g, t) :: rest, rem =>
    if g = t then RESPONSE_RIGHT :: scorePairs rest rem
    else
      match removeFirst g rem with
      | some rem2 => RESPONSE_CLOSE :: scorePairs rest rem2
      | none => RESPONSE_WRONG :: scorePairs rest rem

/-- Source `get_test_response(guess, test_word, quiet, no_emoji)` with
`no_emoji = True` (plain `g`/`y`/`b` marks) and printing dropped. -/
def get_test_response (guess test_word : List Char) : List Char :=
  scorePairs (guess.zip test_word) (initialRem (guess.zip test_word))

/-- Source `is_win`: every mark of the response is a right mark. -/
def is_win (response : List Char) : Bool :=
  response.all (fun c => c == RESPONSE_RIGHT || c == RESPONSE_RIGHT_EMOJI)

/-- Source `is_not_word`: the feedback literally says the guess is not a word. -/
def is_not_word (response : List Char) : Bool :=
  response == ['w', 'h', 'a', 't']

/-- A mark that consumes a target letter: right or close. -/
def isYGmark (ch : Char) : Bool :=
  ch == RESPONSE_RIGHT || ch == RESPONSE_CLOSE

/-- A wrong mark, in either encoding. -/
def isWrongMark (ch : Char) : Bool :=
  ch == RESPONSE_WRONG || ch == RESPONSE_WRONG_EMOJI

/-- A close mark, in either encoding. -/
def isCloseMark (ch : Char) : Bool :=
  ch == RESPONSE_CLOSE || ch == RESPONSE_CLOSE_EMOJI

/-- The spot set the per-position pass of `parse` leaves at one position:
a right mark collapses it to the guess letter, a close or wrong mark
removes the guess letter. -/
def markSpot (s : Finset Char) (mark guess_char : Char) : Finset Char :=
  if mark = RESPONSE_RIGHT ∨ mark = RESPONSE_RIGHT_EMOJI then {guess_char}
  else s.erase guess_char

/-- The guess letters at the positions (response mark, guess letter) whose
mark satisfies `mk`. -/
def marksOf (mk : Char → Bool) : List (Char × Char) → Finset Char
  | [] => ∅
  | (ch, gc) :: rest =>
    if mk ch then insert gc (marksOf mk rest) else marksOf mk rest

/-! ## The response parser `parse` -/

/-- The per-position pass of `parse`: walk the response characters with
their index, apply `mark_wrong`/`mark_close`/`mark_right` with the guess
letter at that index, and collect the letters seen wrong resp. close.
An unrecognised mark aborts with `none` (the source returns `None`). -/
def parseLoop (guess : List Char) :
    List Char → ℕ → State → Finset Char → Finset Char →
    Option (State × Finset Char × Finset Char)
  | [], _, st, wrong, close => some (st, wrong, close)
  | ch :: rest, idx, st, wrong, close =>
    let guess_char := guess.getD idx 'A'
    if ch = RESPONSE_WRONG ∨ ch = RESPONSE_WRONG_EMOJI then
      parseLoop guess rest (idx + 1) (st.mark_wrong guess_char idx)
        (insert guess_char wrong) close
    else if ch = RESPONSE_CLOSE ∨ ch = RESPONSE_CLOSE_EMOJI then
      parseLoop guess rest (idx + 1) (st.mark_close guess_char idx)
        wrong (insert guess_char close)
    else if ch = RESPONSE_RIGHT ∨ ch = RESPONSE_RIGHT_EMOJI then
      parseLoop guess rest (idx + 1) (st.mark_right guess_char idx) wrong close
    else
      none

/-- Source `parse(guess, response, word_length)`: fail on a wrong-length response,
run the per-position pass, then purge every letter that was marked wrong
somewhere and close nowhere in this same response.  The source iterates the
Python set `wrong - close` in its (unspecified) hash order; we iterate it in
ascending character order. -/
def parse (guess response : List Char) (word_length : ℕ) : Option State :=
  if response.length ≠ word_length then none
  else
    match parseLoop guess response 0 (State.new word_length) ∅ ∅ with
    | none => none
    | some (st, wrong, close) =>
      some (((wrong \ close).sort (· ≤ ·)).foldl
        (fun s c => s.mark_wrong_everywhere c) st)

/-! ## Candidate filtering -/

/-- Source `satisfied(word, state)`: right length, each letter allowed at its
position, and every required count met by the word's letter counts. -/
def satisfied (word : List Char) (state : State) : Bool :=
  if word.length ≠ state.word_length then false
  else
    (List.range word.length).all
        (fun idx => decide (word.getD idx 'A' ∈ state.spots.getD idx ∅))
      && state.required.all (fun p => decide (p.2 ≤ word.count p.1))

/-- Source `filter_words(words, state)`. -/
def filter_words (words : List (List Char)) (state : State) : List (List Char) :=
  words.filter (fun word => satisfied word state)

/-! ## Guess ranking

The sampling heuristic draws from `shuffle(words, word)`, which first calls
`random.seed(word)` and then consumes one `random.randint(0, size-1)` per
yielded element.  The standard-library Mersenne Twister is a pure function
of the seed, which we model abstractly as a stream family
`randSeq : List Char → ℕ → ℕ` giving the raw value of the `k`-th draw after
seeding with a given word; `randint(0, size-1)` is rendered as that raw
value reduced `% size`.  The module-global generator state is modelled as a
`GlobalRng` pair (current seed, number of draws made since seeding): every
use of randomness in the engine starts with `random.seed(...)`, which
resets this state. -/

/-- The state of Python's module-global `random` generator: the seed last
planted and the number of values drawn since. -/
abbrev GlobalRng := List Char × ℕ

/-- The body of the `shuffle` generator: `size` counts down, `k` counts the
draws made since seeding, `override` is the `override_spots` dict (as a
function, `none` meaning "key absent"). -/
def shuffleGo (randSeq : List Char → ℕ → ℕ) (seed : List Char)
    (words : List (List Char)) :
    (ℕ → Option (List Char)) → ℕ → ℕ → List (List Char)
  | _, 0, _ => []
  | override, size + 1, k =>
    let index := randSeq seed k % (size + 1)
    let choice := (override index).getD (words.getD index [])
    choice ::
      shuffleGo randSeq seed words
        (fun i => if i = index then some (words.getD size []) else override i)
        size (k + 1)

/-- Source `shuffle(words, seed)`: the full sequence the generator yields.  (The
source yields lazily; the ranking loop below simply consumes a prefix.) -/
def shuffle (randSeq : List Char → ℕ → ℕ) (words : List (List Char))
    (seed : List Char) : List (List Char) :=
  shuffleGo randSeq seed words (fun _ => none) words.length 0

/-- The scoring loop of `rank_word`: walk the test set collecting distinct
responses; `no_change_count` counts consecutive already-seen responses, and
with the heuristic on, ten of those in a row stop the loop.  Returns the
collected partition set together with the number of test-set elements
consumed (the number of draws the lazy generator actually made). -/
def rankLoop (word : List Char) (use_heuristic : Bool) :
    List (List Char) → Finset (List Char) → ℕ → Finset (List Char) × ℕ
  | [], partitions, _ => (partitions, 0)
  | target :: rest, partitions, no_change_count =>
    let response := get_test_response word target
    let ncc := if response ∈ partitions then no_change_count + 1 else 0
    let parts := insert response partitions
    if use_heuristic && decide (RANK_HEURISTIC_NO_CHANGE_COUNT ≤ ncc) then
      (parts, 1)
    else
      let out := rankLoop word use_heuristic rest parts ncc
      (out.1, out.2 + 1)

/-- Source `rank_word(word, words)`: `1 - |partitions| / 3^len(word)` over the
exhaustive pool, or over the seeded shuffle with early stopping when the
pool is larger than `RANK_HEURISTIC_MIN_COUNT`. -/
def rank_word (randSeq : List Char → ℕ → ℕ) (word : List Char)
    (words : List (List Char)) : ℚ :=
  let max_partitions : ℚ := (3 : ℚ) ^ word.length
  let use_heuristic := decide (RANK_HEURISTIC_MIN_COUNT < words.length)
  let test_set := if use_heuristic then shuffle randSeq words word else words
  let partitions := (rankLoop word use_heuristic test_set ∅ 0).1
  1 - (partitions.card : ℚ) / max_partitions

/-- Source `rank_word` with the module-global generator state threaded through:
when the heuristic runs, `shuffle` reseeds the generator with the guess
word and the loop consumes one draw per sampled element; otherwise the
generator is untouched. -/
def rank_word_rng (randSeq : List Char → ℕ → ℕ) (rng : GlobalRng)
    (word : List Char) (words : List (List Char)) : ℚ × GlobalRng :=
  let max_partitions : ℚ := (3 : ℚ) ^ word.length
  let use_heuristic := decide (RANK_HEURISTIC_MIN_COUNT < words.length)
  let test_set := if use_heuristic then shuffle randSeq words word else words
  let out := rankLoop word use_heuristic test_set ∅ 0
  (1 - (out.1.card : ℚ) / max_partitions,
   if use_heuristic then (word, out.2) else rng)

/-- Python's `round(x, n)` on the exact rational scores (round to `n`
decimal places; the float values arising here are not rounding-boundary
cases, so half-rounding conventions do not matter). -/
def pyRound (n : ℕ) (x : ℚ) : ℚ := (round (x * 10 ^ n) : ℤ) / 10 ^ n

/-- The pool `rank_words` actually ranks: the remaining candidates when few
remain (try-to-win switch), the full dictionary otherwise. -/
def wordSet (words remaining : List (List Char)) : List (List Char) :=
  if remaining.length < RANK_HEURISTIC_TRY_TO_WIN_COUNT then remaining else words

/-- Source `rank_words(words, remaining_words, state)` with the global generator
state threaded: the dict comprehension
`{word: round(rank_word(word, remaining_words), RANK_PRECISION) for word in word_set}`
evaluated left to right.  (`state` is only printed in debug mode and does
not influence the result.) -/
def rank_words_rng (randSeq : List Char → ℕ → ℕ) (rng0 : GlobalRng)
    (words remaining : List (List Char)) : List (List Char × ℚ) × GlobalRng :=
  (wordSet words remaining).foldl
    (fun acc w =>
      let r := rank_word_rng randSeq acc.2 w remaining
      (aset acc.1 w (pyRound RANK_PRECISION r.1), r.2))
    ([], rng0)

/-- Source `rank_words` as seen by its caller (the incoming generator state is
irrelevant, see `rank_words_rng_independent_of_rng`). -/
def rank_words (randSeq : List Char → ℕ → ℕ)
    (words remaining : List (List Char)) : List (List Char × ℚ) :=
  (rank_words_rng randSeq ([], 0) words remaining).1

/-- Following the spec's words (§4.5), for comparison with the loop of
`rank_word`: "simulate the Feedback Oracle between the guess and every word
in the target pool, collect the set of distinct Responses produced". -/
def distinctResponses (word : List Char) (pool : List (List Char)) :
    Finset (List Char) :=
  (pool.map (fun target => get_test_response word target)).toFinset

/-- Strict order on ranking entries by `(score, word)` — the sort key of
`choose_word`. -/
def rankKeyLt (p q : List Char × ℚ) : Bool :=
  decide (p.2 < q.2) || (decide (p.2 = q.2) && decide (p.1 < q.1))

/-- Source `choose_word(word_rankings)`: `None` on an empty ranking, else the
first entry of the ranking sorted by `(score, word)`, i.e. the minimum
under `rankKeyLt`.  (The top-`TOP_CHOICES_COUNT` slice only feeds the debug
output.) -/
def choose_word (word_rankings : List (List Char × ℚ)) : Option (List Char) :=
  match word_rankings with
  | [] => none
  | p :: rest =>
    some ((rest.foldl (fun best q => if rankKeyLt q best then q else best) p).1)

/-! ## The "not a word" branch of `play`

On `is_not_word(response)` the simulator runs `words.remove(guess)` and
`remaining_words.remove(guess)` and loops back for another guess without
touching the round counter.  Python's `list.remove` deletes the first
occurrence and raises `ValueError` when the element is absent; `none`
models that uncaught exception. -/

/-- Python `list.remove`: delete the first occurrence, or fail. -/
def list_remove (l : List (List Char)) (x : List Char) :
    Option (List (List Char)) :=
  if x ∈ l then some (l.erase x) else none

/-- The dictionary-shrinkage step of `play` (lines 261-265): remove the
rejected guess from the active dictionary and from the current candidate
pool.  `none` models the `ValueError` Python raises when the guess is
missing from either list. -/
def not_word_step (words remaining : List (List Char)) (guess : List Char) :
    Option (List (List Char) × List (List Char)) :=
  match list_remove words guess with
  | none => none
  | some words2 =>
    match list_remove remaining guess with
    | none => none
    | some remaining2 => some (words2, remaining2)

/-! ## The optimal-strategy search `dive`/`compute_optimal`

The trie is a dict from guess word to a dict from response to either a
terminal round number or a nested trie.  `dive` mutates a shared trie in
place; here each call returns the updated trie.  An existing subtree for
the current `(guess, response)` pair aliases `guess_trie[response]`, so the
recursive call's result is written back over it; a freshly created subtree
is inserted only when nonempty, exactly as the guards
`if response_trie and response not in guess_trie` /
`if guess_trie and guess not in trie` do in the source. -/

/-- The optimal trie: guess word ↦ response ↦ win round or subtree. -/
inductive Trie : Type where
  | node : List (List Char × List (List Char × (ℕ ⊕ Trie))) → Trie

/-- The entries of a trie node. -/
def Trie.entries : Trie → List (List Char × List (List Char × (ℕ ⊕ Trie)))
  | .node es => es

/-- Source `if response_trie:` — a Python dict is truthy iff nonempty. -/
def Trie.nonempty : Trie → Bool
  | .node es => !es.isEmpty

/-- Source `dive(trie, words, max_rounds, responses, path)`.  The recursion in the
source is bounded by `len(path) + 1 == max_rounds`; the explicit `fuel`
argument (kept equal to `max_rounds - len(path)` by every caller) makes it
structural.  A win leaf found under a non-win response key cannot occur
(`is_win` is a function of the response); that unreachable branch leaves
the guess dict unchanged. -/
def dive : ℕ → Trie → List (List Char) → ℕ →
    (List Char → List Char) → List (List Char) → Trie
  | 0, trie, _, _, _, _ => trie
  | fuel + 1, trie, words, max_rounds, responses, path =>
    .node (words.foldl
      (fun entries guess =>
        if guess ∈ path then entries
        else
          let response := responses guess
          let guess_trie := (alookup entries guess).getD []
          let guess_trie2 :=
            if is_win response then
              aset guess_trie response (Sum.inl (path.length + 1))
            else if path.length + 1 = max_rounds then guess_trie
            else
              match alookup guess_trie response with
              | some (Sum.inr rt) =>
                aset guess_trie response
                  (Sum.inr (dive fuel rt words max_rounds responses
                    (path ++ [guess])))
              | some (Sum.inl _) => guess_trie
              | none =>
                let rt := dive fuel (.node []) words max_rounds
                  responses (path ++ [guess])
                if rt.nonempty then aset guess_trie response (Sum.inr rt)
                else guess_trie
          if (alookup entries guess).isSome then aset entries guess guess_trie2
          else if !guess_trie2.isEmpty then aset entries guess guess_trie2
          else entries)
      trie.entries)

/-- Source `compute_optimal(words, max_rounds)` (without the final printing): run
`dive` once per target over one shared trie, with that target's precomputed
response row. -/
def compute_optimal (words : List (List Char)) (max_rounds : ℕ) : Trie :=
  words.foldl
    (fun trie target =>
      dive max_rounds trie words max_rounds
        (fun guess => get_test_response guess target) [])
    (.node [])

/-- Modelled from the spec: the exploration step as §4.8 and claim C9
describe it — "if a subtree already exists for a given (guess, response)
pair from a previous target's exploration, reuse it without recursing
again".  Identical to `dive` except that an existing subtree is kept as is
instead of being recursed into. -/
def dive_memo : ℕ → Trie → List (List Char) → ℕ →
    (List Char → List Char) → List (List Char) → Trie
  | 0, trie, _, _, _, _ => trie
  | fuel + 1, trie, words, max_rounds, responses, path =>
    .node (words.foldl
      (fun entries guess =>
        if guess ∈ path then entries
        else
          let response := responses guess
          let guess_trie := (alookup entries guess).getD []
          let guess_trie2 :=
            if is_win response then
              aset guess_trie response (Sum.inl (path.length + 1))
            else if path.length + 1 = max_rounds then guess_trie
            else
              match alookup guess_trie response with
              | some (Sum.inr _) => guess_trie
              | some (Sum.inl _) => guess_trie
              | none =>
                let rt := dive_memo fuel (.node []) words max_rounds
                  responses (path ++ [guess])
                if rt.nonempty then aset guess_trie response (Sum.inr rt)
                else guess_trie
          if (alookup entries guess).isSome then aset entries guess guess_trie2
          else if !guess_trie2.isEmpty then aset entries guess guess_trie2
          else entries)
      trie.entries)

/-- Modelled from the spec: `compute_optimal` driving the reuse-without-
recursing exploration of claim C9. -/
def compute_optimal_memo (words : List (List Char)) (max_rounds : ℕ) : Trie :=
  words.foldl
    (fun trie target =>
      dive_memo max_rounds trie words max_rounds
        (fun guess => get_test_response guess target) [])
    (.node [])

/-- Follow a `(guess, response)` path down a trie. -/
def subAt : Trie → List (List Char × List Char) → Option Trie
  | t, [] => some t
  | t, (g, r) :: rest =>
    match alookup t.entries g with
    | none => none
    | some gt =>
      match alookup gt r with
      | some (Sum.inr t2) => subAt t2 rest
      | _ => none

/-- The win-round number recorded at `(guess, response)` below a path. -/
def winAt (t : Trie) (path : List (List Char × List Char))
    (guess response : List Char) : Option ℕ :=
  match subAt t path with
  | none => none
  | some t2 =>
    match alookup t2.entries guess with
    | none => none
    | some gt =>
      match alookup gt response with
      | some (Sum.inl n) => some n
      | _ => none

/-- Concrete ten-letter target pool exercising the score rounding: ten
targets that differ only in the last letter. -/
def roundingPool : List (List Char) :=
  ["AAAAAAAAAB".toList, "AAAAAAAAAC".toList, "AAAAAAAAAD".toList,
   "AAAAAAAAAE".toList, "AAAAAAAAAF".toList, "AAAAAAAAAG".toList,
   "AAAAAAAAAH".toList, "AAAAAAAAAI".toList, "AAAAAAAAAJ".toList,
   "AAAAAAAAAK".toList]

/-- Dictionary containing two probe guesses on top of the rounding pool. -/
def roundingDict : List (List Char) :=
  "BZZZZZZZZZ".toList :: "ZZZZZZZZZZ".toList :: roundingPool

/-- Concrete three-word dictionary for the optimal-search example: the
targets CD and CE produce the same all-wrong response to the guess AB, so
the second of them reaches an already-built (AB, bb) subtree. -/
def memoWords : List (List Char) :=
  ["AB".toList, "CD".toList, "CE".toList]

/-- The shared trie after exploring the first two targets (AB and CD) of
`memoWords` with a round budget of 3: the subtree for guess AB and
response bb exists, built during target CD's exploration. -/
def memoTrieTwo : Trie :=
  dive 3
    (dive 3 (.node []) memoWords 3
      (fun guess => get_test_response guess "AB".toList) [])
    memoWords 3 (fun guess => get_test_response guess "CD".toList) []

/-! ## Association-list lemmas -/

theorem alookup_cons {α β : Type} [DecidableEq α] (p : α × β) (l : List (α × β))
    (k : α) :
    alookup (p :: l) k = if p.1 = k then some p.2 else alookup l k := by
  by_cases h : p.1 = k <;> simp [alookup, List.find?_cons, h]

theorem alookup_aset {α β : Type} [DecidableEq α] (l : List (α × β)) (k : α)
    (v : β) (k' : α) :
    alookup (aset l k v) k' = if k' = k then some v else alookup l k' := by
  induction l with
  | nil =>
    rcases eq_or_ne k' k with h | h
    · subst h; simp [aset, alookup_cons]
    · have h2 : k ≠ k' := fun hh => h hh.symm
      simp [aset, alookup_cons, h, h2, alookup]
  | cons p rest ih =>
    rcases eq_or_ne p.1 k with h0 | h0
    · subst h0
      rcases eq_or_ne k' p.1 with h1 | h1
      · subst h1; simp [aset, alookup_cons]
      · have h2 : p.1 ≠ k' := fun hh => h1 hh.symm
        simp [aset, alookup_cons, h1, h2]
    · rcases eq_or_ne p.1 k' with h1 | h1
      · have h2 : k' ≠ k := fun hh => h0 (h1.trans hh)
        simp [aset, alookup_cons, h0, h1, h2]
      · simp [aset, alookup_cons, h0, h1, ih]

theorem alookup_eq_none_iff {α β : Type} [DecidableEq α] (l : List (α × β))
    (k : α) : alookup l k = none ↔ k ∉ l.map Prod.fst := by
  induction l with
  | nil => simp [alookup]
  | cons p rest ih =>
    rcases eq_or_ne p.1 k with h | h
    · simp [alookup_cons, h]
    · have h2 : k ≠ p.1 := fun hh => h hh.symm
      simp [alookup_cons, h, h2, ih]

theorem mem_of_alookup_eq_some {α β : Type} [DecidableEq α]
    {l : List (α × β)} {k : α} {v : β} (h : alookup l k = some v) :
    (k, v) ∈ l := by
  induction l with
  | nil => simp [alookup] at h
  | cons p rest ih =>
    rcases eq_or_ne p.1 k with h0 | h0
    · rw [alookup_cons, if_pos h0] at h
      have hp : p = (k, v) := by
        cases p
        simp only [Option.some.injEq] at h
        simp_all
      rw [← hp]
      exact List.mem_cons_self _ _
    · rw [alookup_cons, if_neg h0] at h
      exact List.mem_cons_of_mem _ (ih h)

theorem alookup_of_mem_nodup {α β : Type} [DecidableEq α]
    {l : List (α × β)} {p : α × β} (hnd : (l.map Prod.fst).Nodup)
    (hp : p ∈ l) : alookup l p.1 = some p.2 := by
  induction l with
  | nil => cases hp
  | cons q rest ih =>
    simp only [List.map_cons, List.nodup_cons] at hnd
    rcases List.mem_cons.mp hp with h | h
    · subst h; simp [alookup_cons]
    · have : q.1 ≠ p.1 := by
        intro he
        exact hnd.1 (he ▸ List.mem_map.mpr ⟨p, h, rfl⟩)
      simp [alookup_cons, this, ih hnd.2 h]

theorem mem_aset_elim {α β : Type} [DecidableEq α]
    {l : List (α × β)} {k : α} {v : β} {p : α × β} (h : p ∈ aset l k v) :
    p ∈ l ∨ p = (k, v) := by
  induction l with
  | nil => simpa [aset] using h
  | cons q rest ih =>
    by_cases h0 : q.1 = k
    · simp only [aset, h0, if_pos rfl] at h
      rcases List.mem_cons.mp h with h | h
      · right; subst h; rw [← h0]
      · left; exact List.mem_cons_of_mem _ h
    · simp only [aset, h0, if_neg h0] at h
      rcases List.mem_cons.mp h with h | h
      · left; exact h ▸ List.mem_cons_self _ _
      · rcases ih h with h | h
        · left; exact List.mem_cons_of_mem _ h
        · right; exact h

theorem map_fst_aset {α β : Type} [DecidableEq α] (l : List (α × β)) (k : α)
    (v : β) :
    (aset l k v).map Prod.fst =
      if k ∈ l.map Prod.fst then l.map Prod.fst else l.map Prod.fst ++ [k] := by
  induction l with
  | nil => simp [aset]
  | cons q rest ih =>
    by_cases h0 : q.1 = k
    · simp [aset, h0]
    · have h1 : ¬ k = q.1 := fun h => h0 h.symm
      by_cases h2 : k ∈ rest.map Prod.fst <;>
        simp [aset, h0, ih, h1, h2, List.mem_cons]

theorem nodup_map_fst_aset {α β : Type} [DecidableEq α]
    {l : List (α × β)} (k : α) (v : β) (h : (l.map Prod.fst).Nodup) :
    ((aset l k v).map Prod.fst).Nodup := by
  rw [map_fst_aset]
  by_cases hk : k ∈ l.map Prod.fst
  · simpa [hk] using h
  · rw [if_neg hk]
    refine List.Nodup.append h (List.nodup_singleton _) ?_
    intro x hx hxk
    rw [List.mem_singleton] at hxk
    subst hxk
    exact hk hx

theorem getD0_aset (l : List (Char × ℕ)) (c : Char) (n : ℕ) (c' : Char) :
    getD0 (aset l c n) c' = if c' = c then n else getD0 l c' := by
  simp only [getD0, alookup_aset]
  split <;> rfl

theorem getD0_eq_zero_of_not_mem {l : List (Char × ℕ)} {c : Char}
    (h : c ∉ l.map Prod.fst) : getD0 l c = 0 := by
  simp [getD0, (alookup_eq_none_iff l c).mpr h]

/-- The `required`-merging fold of `State.fill`, pointwise: provided the
incoming dict has no duplicate keys, every letter ends at the maximum of
its two counts. -/
theorem fillReq_getD0 (bl : List (Char × ℕ)) (al : List (Char × ℕ))
    (hnd : (bl.map Prod.fst).Nodup) (c : Char) :
    getD0 (bl.foldl (fun req p => aset req p.1 (max (getD0 req p.1) p.2)) al) c
      = max (getD0 al c) (getD0 bl c) := by
  induction bl generalizing al with
  | nil => simp [getD0, alookup]
  | cons p rest ih =>
    simp only [List.map_cons, List.nodup_cons] at hnd
    simp only [List.foldl_cons]
    rw [ih _ hnd.2, getD0_aset]
    by_cases hc : c = p.1
    · subst hc
      rw [if_pos rfl, getD0_eq_zero_of_not_mem hnd.1]
      simp [getD0, alookup_cons, Nat.max_assoc]
    · rw [if_neg hc]
      have : p.1 ≠ c := fun h => hc h.symm
      simp [getD0, alookup_cons, this]

theorem requiredAll_iff (l : List (Char × ℕ)) (w : List Char)
    (hnd : (l.map Prod.fst).Nodup) :
    (l.all fun p => decide (p.2 ≤ w.count p.1)) = true ↔
      ∀ c, getD0 l c ≤ w.count c := by
  simp only [List.all_eq_true, decide_eq_true_eq]
  constructor
  · intro h c
    cases halo : alookup l c with
    | none => simp [getD0, halo]
    | some v =>
      have := h _ (mem_of_alookup_eq_some halo)
      simpa [getD0, halo] using this
  · intro h p hp
    have := alookup_of_mem_nodup hnd hp
    have h2 := h p.1
    rw [getD0, this] at h2
    exact h2

/-! ## Feedback-oracle lemmas -/

theorem scorePairs_length (ps : List (Char × Char)) (rem : List (Option Char)) :
    (scorePairs ps rem).length = ps.length := by
  induction ps generalizing rem with
  | nil => rfl
  | cons p rest ih =>
    obtain ⟨g, t⟩ := p
    simp only [scorePairs]
    split
    · simpa using ih rem
    · split <;> simp [ih]

theorem scorePairs_chars (ps : List (Char × Char)) (rem : List (Option Char)) :
    ∀ ch ∈ scorePairs ps rem,
      ch = RESPONSE_RIGHT ∨ ch = RESPONSE_CLOSE ∨ ch = RESPONSE_WRONG := by
  induction ps generalizing rem with
  | nil => intro ch h; cases h
  | cons p rest ih =>
    obtain ⟨g, t⟩ := p
    intro ch h
    simp only [scorePairs] at h
    by_cases he : g = t
    · rw [if_pos he] at h
      rcases List.mem_cons.mp h with h | h
      · exact Or.inl h
      · exact ih rem ch h
    · rw [if_neg he] at h
      cases hrf : removeFirst g rem with
      | some rem2 =>
        rw [hrf] at h
        rcases List.mem_cons.mp h with h | h
        · exact Or.inr (Or.inl h)
        · exact ih rem2 ch h
      | none =>
        rw [hrf] at h
        rcases List.mem_cons.mp h with h | h
        · exact Or.inr (Or.inr h)
        · exact ih rem ch h

/-- Position `k` of the response is a right mark exactly when the guess and
target letters at position `k` agree. -/
theorem scorePairs_right_iff (ps : List (Char × Char)) (rem : List (Option Char))
    (k : ℕ) (hk : k < ps.length) :
    ((scorePairs ps rem).getD k 'A' = RESPONSE_RIGHT ↔
      (ps.getD k ('A', 'A')).1 = (ps.getD k ('A', 'A')).2) := by
  induction ps generalizing rem k with
  | nil => cases hk
  | cons p rest ih =>
    obtain ⟨g, t⟩ := p
    cases k with
    | zero =>
      simp only [scorePairs, List.getD_cons_zero]
      by_cases he : g = t
      · simp [he]
      · rw [if_neg he]
        cases hrf : removeFirst g rem with
        | some rem2 =>
          simp only [List.getD_cons_zero]
          constructor
          · intro hc; exact absurd hc (by decide)
          · intro hc; exact absurd hc he
        | none =>
          simp only [List.getD_cons_zero]
          constructor
          · intro hc; exact absurd hc (by decide)
          · intro hc; exact absurd hc he
    | succ k =>
      have hk2 : k < rest.length := Nat.lt_of_succ_lt_succ hk
      simp only [scorePairs, List.getD_cons_succ]
      by_cases he : g = t
      · rw [if_pos he]
        simpa using ih rem k hk2
      · rw [if_neg he]
        cases hrf : removeFirst g rem with
        | some rem2 => simpa using ih rem2 k hk2
        | none => simpa using ih rem k hk2

theorem removeFirst_cons_some_eq (c : Char) (rest : List (Option Char)) :
    removeFirst c (some c :: rest) = some (none :: rest) := by
  simp [removeFirst]

theorem removeFirst_cons_some_ne (c t : Char) (rest : List (Option Char))
    (h : t ≠ c) :
    removeFirst c (some t :: rest) =
      (removeFirst c rest).map (fun r => some t :: r) := by
  simp [removeFirst, h]

theorem removeFirst_cons_none (c : Char) (rest : List (Option Char)) :
    removeFirst c (none :: rest) =
      (removeFirst c rest).map (fun r => none :: r) := by
  simp [removeFirst]

theorem removeFirst_eq_none_iff (c : Char) (rem : List (Option Char)) :
    removeFirst c rem = none ↔ some c ∉ rem := by
  induction rem with
  | nil => simp [removeFirst]
  | cons o rest ih =>
    cases o with
    | none => simp [removeFirst_cons_none, Option.map_eq_none', ih]
    | some t =>
      rcases eq_or_ne t c with h | h
      · subst h; simp [removeFirst_cons_some_eq]
      · have h2 : ¬ some c = some t := by
          intro hh
          exact h (Option.some.inj hh).symm
        simp [removeFirst_cons_some_ne c t rest h, Option.map_eq_none', ih, h2]

theorem removeFirst_count (c : Char) (rem rem2 : List (Option Char))
    (h : removeFirst c rem = some rem2) (x : Char) :
    rem.count (some x) = rem2.count (some x) + (if x = c then 1 else 0) := by
  induction rem generalizing rem2 with
  | nil => simp [removeFirst] at h
  | cons o rest ih =>
    cases o with
    | none =>
      rw [removeFirst_cons_none, Option.map_eq_some'] at h
      obtain ⟨r2, hr2, hcons⟩ := h
      subst hcons
      simpa using ih r2 hr2
    | some t =>
      rcases eq_or_ne t c with he | he
      · subst he
        rw [removeFirst_cons_some_eq, Option.some.injEq] at h
        subst h
        rcases eq_or_ne x t with hx | hx
        · subst hx; simp [List.count_cons]
        · simp [List.count_cons, hx, fun hh : t = x => hx hh.symm]
      · rw [removeFirst_cons_some_ne c t rest he, Option.map_eq_some'] at h
        obtain ⟨r2, hr2, hcons⟩ := h
        subst hcons
        simp only [List.count_cons]
        rw [ih r2 hr2]
        ring

/-- The heart of round-trip soundness: if some position of the response
marks letter `c` wrong while no position marks `c` close, then at the start
of the presence pass `c` no longer occurred among the live target cells. -/
theorem scorePairs_wrong_no_close (c : Char) (ps : List (Char × Char))
    (rem : List (Option Char))
    (hnoy : ∀ q ∈ (scorePairs ps rem).zip ps,
      ¬(q.1 = RESPONSE_CLOSE ∧ q.2.1 = c))
    (hb : ∃ q ∈ (scorePairs ps rem).zip ps,
      q.1 = RESPONSE_WRONG ∧ q.2.1 = c) :
    rem.count (some c) = 0 := by
  induction ps generalizing rem with
  | nil => simp [scorePairs] at hb
  | cons p rest ih =>
    obtain ⟨g, t⟩ := p
    by_cases he : g = t
    · simp only [scorePairs, if_pos he, List.zip_cons_cons] at hnoy hb
      obtain ⟨q, hq, hqprop⟩ := hb
      rcases List.mem_cons.mp hq with h | h
      · subst h
        obtain ⟨h1, _⟩ := hqprop
        simp only at h1
        exact absurd h1 (by decide)
      · exact ih rem (fun q hq => hnoy q (List.mem_cons_of_mem _ hq)) ⟨q, h, hqprop⟩
    · cases hrf : removeFirst g rem with
      | some rem2 =>
        simp only [scorePairs, if_neg he, hrf, List.zip_cons_cons] at hnoy hb
        have hgc : g ≠ c := by
          intro hgc
          exact hnoy _ (List.mem_cons_self _ _) ⟨rfl, hgc⟩
        obtain ⟨q, hq, hqprop⟩ := hb
        rcases List.mem_cons.mp hq with h | h
        · subst h
          obtain ⟨h1, _⟩ := hqprop
          simp only at h1
          exact absurd h1 (by decide)
        · have h0 := ih rem2 (fun q hq => hnoy q (List.mem_cons_of_mem _ hq))
            ⟨q, h, hqprop⟩
          have hcnt := removeFirst_count g rem rem2 hrf c
          rw [h0, if_neg (fun hh : c = g => hgc hh.symm)] at hcnt
          simpa using hcnt
      | none =>
        simp only [scorePairs, if_neg he, hrf, List.zip_cons_cons] at hnoy hb
        rcases eq_or_ne g c with hgc | hgc
        · subst hgc
          have := (removeFirst_eq_none_iff g rem).mp hrf
          exact List.count_eq_zero.mpr this
        · obtain ⟨q, hq, hqprop⟩ := hb
          rcases List.mem_cons.mp hq with h | h
          · subst h
            obtain ⟨_, h2⟩ := hqprop
            simp only at h2
            exact absurd h2 hgc
          · exact ih rem (fun q hq => hnoy q (List.mem_cons_of_mem _ hq)) ⟨q, h, hqprop⟩

theorem isYGmark_right : isYGmark RESPONSE_RIGHT = true := rfl
theorem isYGmark_close : isYGmark RESPONSE_CLOSE = true := rfl
theorem isYGmark_wrong : isYGmark RESPONSE_WRONG = false := rfl

theorem scorePairs_cons_right (g : Char) (rest : List (Char × Char))
    (rem : List (Option Char)) :
    scorePairs ((g, g) :: rest) rem = RESPONSE_RIGHT :: scorePairs rest rem := by
  simp [scorePairs]

theorem scorePairs_cons_close (g t : Char) (rest : List (Char × Char))
    (rem rem2 : List (Option Char)) (h : g ≠ t)
    (hrf : removeFirst g rem = some rem2) :
    scorePairs ((g, t) :: rest) rem = RESPONSE_CLOSE :: scorePairs rest rem2 := by
  simp [scorePairs, h, hrf]

theorem scorePairs_cons_wrong (g t : Char) (rest : List (Char × Char))
    (rem : List (Option Char)) (h : g ≠ t)
    (hrf : removeFirst g rem = none) :
    scorePairs ((g, t) :: rest) rem = RESPONSE_WRONG :: scorePairs rest rem := by
  simp [scorePairs, h, hrf]

theorem scorePairs_countYG_le_target (c : Char) (ps : List (Char × Char))
    (rem : List (Option Char)) :
    ((scorePairs ps rem).zip ps).countP
        (fun q => isYGmark q.1 && (q.2.1 == c))
      ≤ ps.countP (fun p => (p.1 == p.2) && (p.2 == c)) + rem.count (some c) := by
  induction ps generalizing rem with
  | nil => simp [scorePairs]
  | cons p rest ih =>
    obtain ⟨g, t⟩ := p
    by_cases he : g = t
    · subst he
      rw [scorePairs_cons_right, List.zip_cons_cons, List.countP_cons,
        List.countP_cons]
      simp only [isYGmark_right, Bool.true_and, beq_self_eq_true]
      have h1 := ih rem
      omega
    · cases hrf : removeFirst g rem with
      | some rem2 =>
        rw [scorePairs_cons_close g t rest rem rem2 he hrf, List.zip_cons_cons,
          List.countP_cons, List.countP_cons]
        simp only [isYGmark_close, Bool.true_and, beq_iff_eq, Bool.and_eq_true]
        have hgt : ¬(g = t ∧ t = c) := fun hh => he hh.1
        rw [if_neg hgt]
        have h1 := ih rem2
        have h2 := removeFirst_count g rem rem2 hrf c
        rcases eq_or_ne g c with hgc | hgc
        · subst hgc
          rw [if_pos rfl] at h2
          rw [if_pos rfl]
          omega
        · rw [if_neg (fun hh : c = g => hgc hh.symm)] at h2
          rw [if_neg hgc]
          omega
      | none =>
        rw [scorePairs_cons_wrong g t rest rem he hrf, List.zip_cons_cons,
          List.countP_cons, List.countP_cons]
        simp only [isYGmark_wrong, Bool.false_and, beq_iff_eq, Bool.and_eq_true]
        have hgt : ¬(g = t ∧ t = c) := fun hh => he hh.1
        rw [if_neg hgt]
        have hfalse : ¬(false = true) := by simp
        rw [if_neg hfalse]
        have h1 := ih rem
        omega

theorem scorePairs_countYG_le_guess (c : Char) (ps : List (Char × Char))
    (rem : List (Option Char)) :
    ((scorePairs ps rem).zip ps).countP
        (fun q => isYGmark q.1 && (q.2.1 == c))
      ≤ ps.countP (fun p => p.1 == c) := by
  induction ps generalizing rem with
  | nil => simp [scorePairs]
  | cons p rest ih =>
    obtain ⟨g, t⟩ := p
    by_cases he : g = t
    · subst he
      rw [scorePairs_cons_right, List.zip_cons_cons, List.countP_cons,
        List.countP_cons]
      simp only [isYGmark_right, Bool.true_and]
      have h1 := ih rem
      omega
    · cases hrf : removeFirst g rem with
      | some rem2 =>
        rw [scorePairs_cons_close g t rest rem rem2 he hrf, List.zip_cons_cons,
          List.countP_cons, List.countP_cons]
        simp only [isYGmark_close, Bool.true_and]
        have h1 := ih rem2
        omega
      | none =>
        rw [scorePairs_cons_wrong g t rest rem he hrf, List.zip_cons_cons,
          List.countP_cons, List.countP_cons]
        simp only [isYGmark_wrong, Bool.false_and]
        have hfalse : ¬(false = true) := by simp
        rw [if_neg hfalse]
        have h1 := ih rem
        omega

theorem initialRem_count (ps : List (Char × Char)) (c : Char) :
    (initialRem ps).count (some c)
      = ps.countP (fun p => (!(p.1 == p.2)) && (p.2 == c)) := by
  induction ps with
  | nil => simp [initialRem]
  | cons p rest ih =>
    obtain ⟨g, t⟩ := p
    have hcons : initialRem ((g, t) :: rest)
        = (if g = t then none else some t) :: initialRem rest := by
      simp [initialRem]
    rw [hcons, List.count_cons, List.countP_cons, ih]
    by_cases he : g = t
    · simp [he]
    · rcases eq_or_ne t c with htc | htc
      · simp [he, htc]
      · have h2 : ¬ ((some t : Option Char) == some c) = true := by
          simp [htc]
        simp [he, htc, h2]

theorem countP_exact_split (c : Char) (ps : List (Char × Char)) :
    ps.countP (fun p => (p.1 == p.2) && (p.2 == c))
      + ps.countP (fun p => (!(p.1 == p.2)) && (p.2 == c))
      = ps.countP (fun p => p.2 == c) := by
  induction ps with
  | nil => simp
  | cons p rest ih =>
    obtain ⟨g, t⟩ := p
    simp only [List.countP_cons]
    have h1 := ih
    by_cases he : g = t <;> by_cases htc : t = c <;> by_cases hgc : g = c <;>
      simp [he, htc, hgc] <;> omega

theorem get_test_response_eq (guess target : List Char) :
    get_test_response guess target
      = scorePairs (guess.zip target) (initialRem (guess.zip target)) := rfl

/-- Oracle mark bound against the target: for each letter, the right/close
marks the response assigns to it never exceed its count in the target. -/
theorem response_marks_le_target (guess target : List Char)
    (h : guess.length = target.length) (c : Char) :
    ((get_test_response guess target).zip guess).countP
        (fun q => isYGmark q.1 && (q.2 == c)) ≤ target.count c := by
  have hguess : (guess.zip target).map Prod.fst = guess :=
    List.map_fst_zip _ _ (le_of_eq h)
  have htarget : (guess.zip target).map Prod.snd = target :=
    List.map_snd_zip _ _ (le_of_eq h.symm)
  have hzip : ∀ r : List Char,
      r.zip guess = (r.zip (guess.zip target)).map (Prod.map id Prod.fst) := by
    intro r
    conv_lhs => rw [← hguess]
    exact List.zip_map_right _ _ _
  rw [hzip, List.countP_map]
  have hpred : ((fun q : Char × Char => isYGmark q.1 && (q.2 == c))
        ∘ (Prod.map id Prod.fst))
      = (fun q : Char × Char × Char => isYGmark q.1 && (q.2.1 == c)) := rfl
  rw [hpred, get_test_response_eq]
  have hcount : target.count c = (guess.zip target).countP (fun p => p.2 == c) := by
    conv_lhs => rw [← htarget]
    rw [List.count_eq_countP, List.countP_map]
    exact List.countP_congr (fun a _ => Iff.rfl)
  calc ((scorePairs (guess.zip target) (initialRem (guess.zip target))).zip
          (guess.zip target)).countP
        (fun q => isYGmark q.1 && (q.2.1 == c))
      ≤ (guess.zip target).countP (fun p => (p.1 == p.2) && (p.2 == c))
          + (initialRem (guess.zip target)).count (some c) :=
        scorePairs_countYG_le_target c _ _
    _ = (guess.zip target).countP (fun p => p.2 == c) := by
        rw [initialRem_count, countP_exact_split]
    _ = target.count c := hcount.symm

/-- Oracle mark bound against the guess: for each letter, the right/close
marks assigned to it never exceed its count in the guess. -/
theorem response_marks_le_guess (guess target : List Char)
    (h : guess.length = target.length) (c : Char) :
    ((get_test_response guess target).zip guess).countP
        (fun q => isYGmark q.1 && (q.2 == c)) ≤ guess.count c := by
  have hguess : (guess.zip target).map Prod.fst = guess :=
    List.map_fst_zip _ _ (le_of_eq h)
  have hzip : ∀ r : List Char,
      r.zip guess = (r.zip (guess.zip target)).map (Prod.map id Prod.fst) := by
    intro r
    conv_lhs => rw [← hguess]
    exact List.zip_map_right _ _ _
  rw [hzip, List.countP_map]
  have hpred : ((fun q : Char × Char => isYGmark q.1 && (q.2 == c))
        ∘ (Prod.map id Prod.fst))
      = (fun q : Char × Char × Char => isYGmark q.1 && (q.2.1 == c)) := rfl
  rw [hpred, get_test_response_eq]
  have hcount : guess.count c = (guess.zip target).countP (fun p => p.1 == c) := by
    conv_lhs => rw [← hguess]
    rw [List.count_eq_countP, List.countP_map]
    exact List.countP_congr (fun a _ => Iff.rfl)
  calc ((scorePairs (guess.zip target) (initialRem (guess.zip target))).zip
          (guess.zip target)).countP
        (fun q => isYGmark q.1 && (q.2.1 == c))
      ≤ (guess.zip target).countP (fun p => p.1 == c) :=
        scorePairs_countYG_le_guess c _ _
    _ = guess.count c := hcount.symm

/-! ## Win detection -/

theorem scorePairs_self (g : List Char) (rem : List (Option Char)) :
    scorePairs (g.zip g) rem = List.replicate g.length RESPONSE_RIGHT := by
  induction g generalizing rem with
  | nil => rfl
  | cons a rest ih =>
    rw [List.zip_cons_cons, scorePairs_cons_right, List.length_cons,
      List.replicate_succ, ih]

theorem scorePairs_all_right (ps : List (Char × Char))
    (rem : List (Option Char))
    (hall : ∀ ch ∈ scorePairs ps rem, ch = RESPONSE_RIGHT) :
    ∀ p ∈ ps, p.1 = p.2 := by
  induction ps generalizing rem with
  | nil => intro p hp; cases hp
  | cons p rest ih =>
    obtain ⟨g, t⟩ := p
    by_cases he : g = t
    · subst he
      rw [scorePairs_cons_right] at hall
      intro q hq
      rcases List.mem_cons.mp hq with h | h
      · subst h; rfl
      · exact ih rem (fun ch hc => hall ch (List.mem_cons_of_mem _ hc)) q h
    · exfalso
      cases hrf : removeFirst g rem with
      | some rem2 =>
        rw [scorePairs_cons_close g t rest rem rem2 he hrf] at hall
        have := hall RESPONSE_CLOSE (List.mem_cons_self _ _)
        exact absurd this (by decide)
      | none =>
        rw [scorePairs_cons_wrong g t rest rem he hrf] at hall
        have := hall RESPONSE_WRONG (List.mem_cons_self _ _)
        exact absurd this (by decide)

/-- Win detection exactness at the oracle: the response to a guess against
a target of the same length is a win exactly when the guess is the
target. -/
theorem is_win_oracle_iff (guess target : List Char)
    (h : guess.length = target.length) :
    (is_win (get_test_response guess target) = true ↔ guess = target) := by
  constructor
  · intro hw
    have hall : ∀ ch ∈ get_test_response guess target, ch = RESPONSE_RIGHT := by
      intro ch hc
      rcases scorePairs_chars _ _ ch hc with h1 | h1 | h1
      · exact h1
      · rw [is_win, List.all_eq_true] at hw
        have := hw ch hc
        rw [h1] at this
        exact absurd this (by decide)
      · rw [is_win, List.all_eq_true] at hw
        have := hw ch hc
        rw [h1] at this
        exact absurd this (by decide)
    have hpairs := scorePairs_all_right (guess.zip target)
      (initialRem (guess.zip target)) hall
    apply List.ext_getElem h
    intro i h1 h2
    have hzle : i < (guess.zip target).length := by
      rw [List.length_zip]
      omega
    have := hpairs ((guess.zip target)[i]) (List.getElem_mem _)
    rwa [List.getElem_zip] at this
  · intro he
    subst he
    rw [get_test_response_eq, scorePairs_self, is_win, List.all_eq_true]
    intro ch hc
    rw [List.eq_of_mem_replicate hc]
    decide

/-! ## Parser lemmas -/

theorem getD_set_ne {α : Type} (l : List α) (i j : ℕ) (h : i ≠ j) (a d : α) :
    (l.set i a).getD j d = l.getD j d := by
  simp [List.getD_eq_getElem?_getD, List.getElem?_set_ne h]

theorem getD_set_self {α : Type} (l : List α) (i : ℕ) (h : i < l.length)
    (a d : α) : (l.set i a).getD i d = a := by
  simp [List.getD_eq_getElem?_getD, List.getElem?_set_self h]

theorem parseLoop_nil (guess : List Char) (idx : ℕ) (st : State)
    (w cl : Finset Char) : parseLoop guess [] idx st w cl = some (st, w, cl) :=
  rfl

theorem parseLoop_cons_wrongBranch (guess : List Char) (ch : Char)
    (rest : List Char) (idx : ℕ) (st : State) (w cl : Finset Char)
    (hb : ch = RESPONSE_WRONG ∨ ch = RESPONSE_WRONG_EMOJI) :
    parseLoop guess (ch :: rest) idx st w cl
      = parseLoop guess rest (idx + 1)
          (st.mark_wrong (guess.getD idx 'A') idx)
          (insert (guess.getD idx 'A') w) cl := by
  simp [parseLoop, hb]

theorem parseLoop_cons_closeBranch (guess : List Char) (ch : Char)
    (rest : List Char) (idx : ℕ) (st : State) (w cl : Finset Char)
    (h1 : ¬(ch = RESPONSE_WRONG ∨ ch = RESPONSE_WRONG_EMOJI))
    (h2 : ch = RESPONSE_CLOSE ∨ ch = RESPONSE_CLOSE_EMOJI) :
    parseLoop guess (ch :: rest) idx st w cl
      = parseLoop guess rest (idx + 1)
          (st.mark_close (guess.getD idx 'A') idx)
          w (insert (guess.getD idx 'A') cl) := by
  simp [parseLoop, h1, h2]

theorem parseLoop_cons_rightBranch (guess : List Char) (ch : Char)
    (rest : List Char) (idx : ℕ) (st : State) (w cl : Finset Char)
    (h1 : ¬(ch = RESPONSE_WRONG ∨ ch = RESPONSE_WRONG_EMOJI))
    (h2 : ¬(ch = RESPONSE_CLOSE ∨ ch = RESPONSE_CLOSE_EMOJI))
    (h3 : ch = RESPONSE_RIGHT ∨ ch = RESPONSE_RIGHT_EMOJI) :
    parseLoop guess (ch :: rest) idx st w cl
      = parseLoop guess rest (idx + 1)
          (st.mark_right (guess.getD idx 'A') idx) w cl := by
  simp [parseLoop, h1, h2, h3]

theorem parseLoop_isSome (guess : List Char) : ∀ (r : List Char),
    (∀ ch ∈ r, ch = RESPONSE_RIGHT ∨ ch = RESPONSE_CLOSE ∨ ch = RESPONSE_WRONG) →
    ∀ (idx : ℕ) (st : State) (w cl : Finset Char),
      (parseLoop guess r idx st w cl).isSome := by
  intro r
  induction r with
  | nil => intro _ idx st w cl; rw [parseLoop_nil]; rfl
  | cons ch rest ih =>
    intro hch idx st w cl
    have hrest := fun ch hc => hch ch (List.mem_cons_of_mem _ hc)
    rcases hch ch (List.mem_cons_self _ _) with h | h | h <;> subst h
    · rw [parseLoop_cons_rightBranch _ _ _ _ _ _ _ (by decide) (by decide)
        (Or.inl rfl)]
      exact ih hrest _ _ _ _
    · rw [parseLoop_cons_closeBranch _ _ _ _ _ _ _ (by decide) (Or.inl rfl)]
      exact ih hrest _ _ _ _
    · rw [parseLoop_cons_wrongBranch _ _ _ _ _ _ _ (Or.inl rfl)]
      exact ih hrest _ _ _ _

/-- One step of the spot characterisation: combining the effect of a single
mark at `idx` with the inductive hypothesis for the remaining positions. -/
theorem spots_step (guess : List Char) (st st2 st' : State) (idx : ℕ)
    (A : Finset Char) (rest : List Char) (ch : Char)
    (hspots2 : st2.spots = st.spots.set idx A)
    (hwl2 : st2.word_length = st.word_length)
    (hA : A = markSpot (st.spots.getD idx ∅) ch (guess.getD idx 'A'))
    (ihwl : st'.word_length = st2.word_length)
    (ihlen : st'.spots.length = st2.spots.length)
    (ihlow : ∀ j, j < idx + 1 → st'.spots.getD j ∅ = st2.spots.getD j ∅)
    (ihat : (idx + 1) + rest.length ≤ st2.spots.length →
        ∀ k, k < rest.length → st'.spots.getD ((idx + 1) + k) ∅
          = markSpot (st2.spots.getD ((idx + 1) + k) ∅) (rest.getD k 'A')
              (guess.getD ((idx + 1) + k) 'A')) :
    st'.word_length = st.word_length
    ∧ st'.spots.length = st.spots.length
    ∧ (∀ j, j < idx → st'.spots.getD j ∅ = st.spots.getD j ∅)
    ∧ (idx + (ch :: rest).length ≤ st.spots.length →
        ∀ k, k < (ch :: rest).length → st'.spots.getD (idx + k) ∅
          = markSpot (st.spots.getD (idx + k) ∅) ((ch :: rest).getD k 'A')
              (guess.getD (idx + k) 'A')) := by
  have hlen2 : st2.spots.length = st.spots.length := by
    rw [hspots2, List.length_set]
  refine ⟨ihwl.trans hwl2, ihlen.trans hlen2, ?_, ?_⟩
  · intro j hj
    rw [ihlow j (by omega), hspots2, getD_set_ne _ _ _ (by omega)]
  · intro hle k hk
    rw [List.length_cons] at hle
    cases k with
    | zero =>
      rw [Nat.add_zero, ihlow idx (by omega), hspots2,
        getD_set_self _ _ (by omega), hA, List.getD_cons_zero]
    | succ k2 =>
      rw [List.length_cons] at hk
      have harith : idx + (k2 + 1) = (idx + 1) + k2 := by omega
      rw [harith, ihat (by omega) k2 (by omega), hspots2,
        getD_set_ne _ _ _ (by omega), List.getD_cons_succ]

theorem parseLoop_spots (guess : List Char) : ∀ (r : List Char) (idx : ℕ)
    (st : State) (w cl : Finset Char) (st' : State) (w' cl' : Finset Char),
    parseLoop guess r idx st w cl = some (st', w', cl') →
    st'.word_length = st.word_length
    ∧ st'.spots.length = st.spots.length
    ∧ (∀ j, j < idx → st'.spots.getD j ∅ = st.spots.getD j ∅)
    ∧ (idx + r.length ≤ st.spots.length →
        ∀ k, k < r.length → st'.spots.getD (idx + k) ∅
          = markSpot (st.spots.getD (idx + k) ∅) (r.getD k 'A')
              (guess.getD (idx + k) 'A')) := by
  intro r
  induction r with
  | nil =>
    intro idx st w cl st' w' cl' h
    rw [parseLoop_nil] at h
    simp only [Option.some.injEq, Prod.mk.injEq] at h
    obtain ⟨h1, _, _⟩ := h
    subst h1
    exact ⟨rfl, rfl, fun j _ => rfl, fun _ k hk => absurd hk (by simp)⟩
  | cons ch rest ih =>
    intro idx st w cl st' w' cl' h
    by_cases hb : ch = RESPONSE_WRONG ∨ ch = RESPONSE_WRONG_EMOJI
    · rw [parseLoop_cons_wrongBranch _ _ _ _ _ _ _ hb] at h
      obtain ⟨ihwl, ihlen, ihlow, ihat⟩ := ih _ _ _ _ _ _ _ h
      refine spots_step guess st (st.mark_wrong (guess.getD idx 'A') idx) st' idx
        ((st.spots.getD idx ∅).erase (guess.getD idx 'A')) rest ch rfl rfl ?_
        ihwl ihlen ihlow ihat
      rw [markSpot, if_neg]
      rcases hb with h | h <;> subst h <;> decide
    · by_cases hc : ch = RESPONSE_CLOSE ∨ ch = RESPONSE_CLOSE_EMOJI
      · rw [parseLoop_cons_closeBranch _ _ _ _ _ _ _ hb hc] at h
        obtain ⟨ihwl, ihlen, ihlow, ihat⟩ := ih _ _ _ _ _ _ _ h
        refine spots_step guess st (st.mark_close (guess.getD idx 'A') idx) st' idx
          ((st.spots.getD idx ∅).erase (guess.getD idx 'A')) rest ch rfl rfl ?_
          ihwl ihlen ihlow ihat
        rw [markSpot, if_neg]
        rcases hc with h | h <;> subst h <;> decide
      · by_cases hg : ch = RESPONSE_RIGHT ∨ ch = RESPONSE_RIGHT_EMOJI
        · rw [parseLoop_cons_rightBranch _ _ _ _ _ _ _ hb hc hg] at h
          obtain ⟨ihwl, ihlen, ihlow, ihat⟩ := ih _ _ _ _ _ _ _ h
          refine spots_step guess st (st.mark_right (guess.getD idx 'A') idx) st'
            idx {guess.getD idx 'A'} rest ch rfl rfl ?_ ihwl ihlen ihlow ihat
          rw [markSpot, if_pos hg]
        · rw [parseLoop] at h
          simp only [if_neg hb, if_neg hc, if_neg hg] at h
          cases h

theorem getD_eq_getElem_of_lt {α : Type} (l : List α) (n : ℕ) (d : α)
    (h : n < l.length) : l.getD n d = l[n] := by
  simp [List.getD_eq_getElem?_getD, List.getElem?_eq_getElem h]

theorem parseLoop_required (guess : List Char) : ∀ (r : List Char),
    (∀ ch ∈ r, ch = RESPONSE_RIGHT ∨ ch = RESPONSE_CLOSE ∨ ch = RESPONSE_WRONG) →
    ∀ (idx : ℕ) (st : State) (w cl : Finset Char) (st' : State)
      (w' cl' : Finset Char),
    parseLoop guess r idx st w cl = some (st', w', cl') →
    ((st.required.map Prod.fst).Nodup → (st'.required.map Prod.fst).Nodup)
    ∧ (idx + r.length ≤ guess.length →
        ∀ c, getD0 st'.required c = getD0 st.required c
          + (r.zip (guess.drop idx)).countP
              (fun q => isYGmark q.1 && (q.2 == c))) := by
  intro r
  induction r with
  | nil =>
    intro _ idx st w cl st' w' cl' h
    rw [parseLoop_nil] at h
    simp only [Option.some.injEq, Prod.mk.injEq] at h
    obtain ⟨h1, _, _⟩ := h
    subst h1
    exact ⟨id, fun _ c => by simp⟩
  | cons ch rest ih =>
    intro hch idx st w cl st' w' cl' h
    have hrest := fun ch hc => hch ch (List.mem_cons_of_mem _ hc)
    rcases hch ch (List.mem_cons_self _ _) with hL | hL | hL <;> subst hL
    · rw [parseLoop_cons_rightBranch _ _ _ _ _ _ _ (by decide) (by decide)
        (Or.inl rfl)] at h
      obtain ⟨ihnd, ihcnt⟩ := ih hrest _ _ _ _ _ _ _ h
      constructor
      · intro hnd
        exact ihnd (nodup_map_fst_aset _ _ hnd)
      · intro hle c
        rw [List.length_cons] at hle
        have hidx : idx < guess.length := by omega
        have hdrop : guess.drop idx = guess.getD idx 'A' :: guess.drop (idx + 1) := by
          rw [getD_eq_getElem_of_lt _ _ _ hidx]
          exact List.drop_eq_getElem_cons hidx
        rw [hdrop, List.zip_cons_cons, List.countP_cons, isYGmark_right, Bool.true_and]
        have hcnt := ihcnt (by omega) c
        have haset : getD0 (State.mark_right st (guess.getD idx 'A') idx).required c
            = if c = guess.getD idx 'A' then getD0 st.required (guess.getD idx 'A') + 1
              else getD0 st.required c := by
          rw [State.mark_right, getD0_aset]
        rw [hcnt, haset]
        rcases eq_or_ne c (guess.getD idx 'A') with hcc | hcc
        · rw [if_pos hcc,
            if_pos (show (guess.getD idx 'A' == c) = true by
              simp only [beq_iff_eq]; exact hcc.symm), ← hcc]
          omega
        · rw [if_neg hcc,
            if_neg (show ¬ ((guess.getD idx 'A' == c) = true) by
              simp only [beq_iff_eq]; exact fun hh => hcc hh.symm)]
          omega
    · rw [parseLoop_cons_closeBranch _ _ _ _ _ _ _ (by decide) (Or.inl rfl)] at h
      obtain ⟨ihnd, ihcnt⟩ := ih hrest _ _ _ _ _ _ _ h
      constructor
      · intro hnd
        exact ihnd (nodup_map_fst_aset _ _ hnd)
      · intro hle c
        rw [List.length_cons] at hle
        have hidx : idx < guess.length := by omega
        have hdrop : guess.drop idx = guess.getD idx 'A' :: guess.drop (idx + 1) := by
          rw [getD_eq_getElem_of_lt _ _ _ hidx]
          exact List.drop_eq_getElem_cons hidx
        rw [hdrop, List.zip_cons_cons, List.countP_cons, isYGmark_close, Bool.true_and]
        have hcnt := ihcnt (by omega) c
        have haset : getD0 (State.mark_close st (guess.getD idx 'A') idx).required c
            = if c = guess.getD idx 'A' then getD0 st.required (guess.getD idx 'A') + 1
              else getD0 st.required c := by
          rw [State.mark_close, getD0_aset]
        rw [hcnt, haset]
        rcases eq_or_ne c (guess.getD idx 'A') with hcc | hcc
        · rw [if_pos hcc,
            if_pos (show (guess.getD idx 'A' == c) = true by
              simp only [beq_iff_eq]; exact hcc.symm), ← hcc]
          omega
        · rw [if_neg hcc,
            if_neg (show ¬ ((guess.getD idx 'A' == c) = true) by
              simp only [beq_iff_eq]; exact fun hh => hcc hh.symm)]
          omega
    · rw [parseLoop_cons_wrongBranch _ _ _ _ _ _ _ (Or.inl rfl)] at h
      obtain ⟨ihnd, ihcnt⟩ := ih hrest _ _ _ _ _ _ _ h
      refine ⟨ihnd, ?_⟩
      intro hle c
      rw [List.length_cons] at hle
      have hidx : idx < guess.length := by omega
      have hdrop : guess.drop idx = guess.getD idx 'A' :: guess.drop (idx + 1) := by
        rw [getD_eq_getElem_of_lt _ _ _ hidx]
        exact List.drop_eq_getElem_cons hidx
      rw [hdrop, List.zip_cons_cons, List.countP_cons, isYGmark_wrong,
        Bool.false_and, if_neg (by simp), Nat.add_zero]
      exact ihcnt (by omega) c

theorem marksOf_cons (mk : Char → Bool) (ch gc : Char)
    (rest : List (Char × Char)) :
    marksOf mk ((ch, gc) :: rest)
      = if mk ch then insert gc (marksOf mk rest) else marksOf mk rest := rfl

theorem isWrongMark_b : isWrongMark RESPONSE_WRONG = true := rfl
theorem isWrongMark_y : isWrongMark RESPONSE_CLOSE = false := rfl
theorem isWrongMark_g : isWrongMark RESPONSE_RIGHT = false := rfl
theorem isCloseMark_b : isCloseMark RESPONSE_WRONG = false := rfl
theorem isCloseMark_y : isCloseMark RESPONSE_CLOSE = true := rfl
theorem isCloseMark_g : isCloseMark RESPONSE_RIGHT = false := rfl

theorem mem_marksOf (mk : Char → Bool) (l : List (Char × Char)) (c : Char) :
    c ∈ marksOf mk l ↔ ∃ q ∈ l, mk q.1 = true ∧ q.2 = c := by
  induction l with
  | nil => simp [marksOf]
  | cons q rest ih =>
    obtain ⟨ch, gc⟩ := q
    rw [marksOf_cons]
    by_cases hmk : mk ch = true
    · rw [if_pos hmk]
      constructor
      · intro hmem
        rcases Finset.mem_insert.mp hmem with h | h
        · exact ⟨(ch, gc), List.mem_cons_self _ _, hmk, h.symm⟩
        · obtain ⟨q, hq, hprop⟩ := ih.mp h
          exact ⟨q, List.mem_cons_of_mem _ hq, hprop⟩
      · intro ⟨q, hq, hprop⟩
        rcases List.mem_cons.mp hq with h | h
        · subst h
          exact Finset.mem_insert.mpr (Or.inl hprop.2.symm)
        · exact Finset.mem_insert.mpr (Or.inr (ih.mpr ⟨q, h, hprop⟩))
    · rw [if_neg hmk]
      rw [ih]
      constructor
      · intro ⟨q, hq, hprop⟩
        exact ⟨q, List.mem_cons_of_mem _ hq, hprop⟩
      · intro ⟨q, hq, hprop⟩
        rcases List.mem_cons.mp hq with h | h
        · subst h
          exact absurd hprop.1 hmk
        · exact ⟨q, h, hprop⟩

theorem parseLoop_sets (guess : List Char) : ∀ (r : List Char),
    (∀ ch ∈ r, ch = RESPONSE_RIGHT ∨ ch = RESPONSE_CLOSE ∨ ch = RESPONSE_WRONG) →
    ∀ (idx : ℕ) (st : State) (w cl : Finset Char) (st' : State)
      (w' cl' : Finset Char),
    parseLoop guess r idx st w cl = some (st', w', cl') →
    idx + r.length ≤ guess.length →
    w' = w ∪ marksOf isWrongMark (r.zip (guess.drop idx))
    ∧ cl' = cl ∪ marksOf isCloseMark (r.zip (guess.drop idx)) := by
  intro r
  induction r with
  | nil =>
    intro _ idx st w cl st' w' cl' h _
    rw [parseLoop_nil] at h
    simp only [Option.some.injEq, Prod.mk.injEq] at h
    obtain ⟨_, h2, h3⟩ := h
    subst h2; subst h3
    simp [marksOf]
  | cons ch rest ih =>
    intro hch idx st w cl st' w' cl' h hle
    have hrest := fun ch hc => hch ch (List.mem_cons_of_mem _ hc)
    rw [List.length_cons] at hle
    have hidx : idx < guess.length := by omega
    have hdrop : guess.drop idx = guess.getD idx 'A' :: guess.drop (idx + 1) := by
      rw [getD_eq_getElem_of_lt _ _ _ hidx]
      exact List.drop_eq_getElem_cons hidx
    rw [hdrop, List.zip_cons_cons, marksOf_cons, marksOf_cons]
    rcases hch ch (List.mem_cons_self _ _) with hL | hL | hL <;> subst hL
    · rw [parseLoop_cons_rightBranch _ _ _ _ _ _ _ (by decide) (by decide)
        (Or.inl rfl)] at h
      obtain ⟨hw, hcl⟩ := ih hrest _ _ _ _ _ _ _ h (by omega)
      rw [isWrongMark_g, isCloseMark_g, if_neg (by simp), if_neg (by simp)]
      exact ⟨hw, hcl⟩
    · rw [parseLoop_cons_closeBranch _ _ _ _ _ _ _ (by decide) (Or.inl rfl)] at h
      obtain ⟨hw, hcl⟩ := ih hrest _ _ _ _ _ _ _ h (by omega)
      rw [isWrongMark_y, isCloseMark_y, if_neg (by simp), if_pos rfl]
      refine ⟨hw, ?_⟩
      rw [hcl, Finset.insert_union, Finset.union_insert]
    · rw [parseLoop_cons_wrongBranch _ _ _ _ _ _ _ (Or.inl rfl)] at h
      obtain ⟨hw, hcl⟩ := ih hrest _ _ _ _ _ _ _ h (by omega)
      rw [isWrongMark_b, isCloseMark_b, if_pos rfl, if_neg (by simp)]
      refine ⟨?_, hcl⟩
      rw [hw, Finset.insert_union, Finset.union_insert]

/-! ## `mark_wrong_everywhere` fold lemmas -/

theorem mwe_spots_getD (st : State) (c : Char) (j : ℕ)
    (hj : j < st.spots.length) :
    (st.mark_wrong_everywhere c).spots.getD j ∅
      = (if 1 < (st.spots.getD j ∅).card then (st.spots.getD j ∅).erase c
          else st.spots.getD j ∅) := by
  simp [State.mark_wrong_everywhere, List.getD_eq_getElem?_getD,
    List.getElem?_map, List.getElem?_eq_getElem hj]

theorem foldl_mwe_word_length : ∀ (cs : List Char) (st : State),
    (cs.foldl (fun s c => s.mark_wrong_everywhere c) st).word_length
      = st.word_length := by
  intro cs
  induction cs with
  | nil => intro st; rfl
  | cons c rest ih => intro st; rw [List.foldl_cons]; exact ih _

theorem foldl_mwe_required : ∀ (cs : List Char) (st : State),
    (cs.foldl (fun s c => s.mark_wrong_everywhere c) st).required
      = st.required := by
  intro cs
  induction cs with
  | nil => intro st; rfl
  | cons c rest ih => intro st; rw [List.foldl_cons]; exact ih _

theorem foldl_mwe_spots_length : ∀ (cs : List Char) (st : State),
    (cs.foldl (fun s c => s.mark_wrong_everywhere c) st).spots.length
      = st.spots.length := by
  intro cs
  induction cs with
  | nil => intro st; rfl
  | cons c rest ih =>
    intro st
    rw [List.foldl_cons, ih]
    simp [State.mark_wrong_everywhere]

theorem foldl_mwe_mem : ∀ (cs : List Char) (st : State) (j : ℕ) (x : Char),
    x ∈ st.spots.getD j ∅ → (∀ c ∈ cs, x ≠ c) →
    x ∈ (cs.foldl (fun s c => s.mark_wrong_everywhere c) st).spots.getD j ∅ := by
  intro cs
  induction cs with
  | nil => intro st j x hx _; exact hx
  | cons c rest ih =>
    intro st j x hx hnot
    rw [List.foldl_cons]
    apply ih
    · have hj : j < st.spots.length := by
        by_contra hj
        rw [List.getD_eq_getElem?_getD, List.getElem?_eq_none (by omega)] at hx
        simp at hx
      rw [mwe_spots_getD st c j hj]
      split
      · exact Finset.mem_erase.mpr ⟨hnot c (List.mem_cons_self _ _), hx⟩
      · exact hx
    · exact fun c2 hc2 => hnot c2 (List.mem_cons_of_mem _ hc2)

theorem foldl_mwe_singleton : ∀ (cs : List Char) (st : State) (j : ℕ) (a : Char),
    st.spots.getD j ∅ = {a} →
    (cs.foldl (fun s c => s.mark_wrong_everywhere c) st).spots.getD j ∅ = {a} := by
  intro cs
  induction cs with
  | nil => intro st j a h; exact h
  | cons c rest ih =>
    intro st j a h
    rw [List.foldl_cons]
    apply ih
    have hj : j < st.spots.length := by
      by_contra hj
      rw [List.getD_eq_getElem?_getD, List.getElem?_eq_none (by omega)] at h
      simp at h
      exact (Finset.singleton_ne_empty a) h.symm
    rw [mwe_spots_getD st c j hj, h]
    simp

/-- The parse of a plain-mark response of the right length succeeds and
produces the fold of `mark_wrong_everywhere` over the parsed state. -/
theorem parse_run (guess r : List Char) (word_length : ℕ) (st1 : State)
    (w cl : Finset Char) (hlen : r.length = word_length)
    (hloop : parseLoop guess r 0 (State.new word_length) ∅ ∅
      = some (st1, w, cl)) :
    parse guess r word_length
      = some (((w \ cl).sort (· ≤ ·)).foldl
          (fun s c => s.mark_wrong_everywhere c) st1) := by
  rw [parse, if_neg (show ¬ r.length ≠ word_length from fun hh => hh hlen), hloop]

/-- Round-trip soundness, stated over the final parsed state.  `guess` and
`target` have the same length and `target` is an uppercase word; the parse
of the oracle response succeeds and `target` satisfies the resulting
state. -/
theorem parse_oracle_satisfied (guess target : List Char)
    (hlen : guess.length = target.length)
    (ht : ∀ c ∈ target, c ∈ ascii_uppercase) :
    (parse guess (get_test_response guess target) guess.length).map
      (fun st => satisfied target st) = some true := by
  set r := get_test_response guess target with hr
  have hps_len : (guess.zip target).length = guess.length := by
    rw [List.length_zip, hlen, Nat.min_self]
  have hr_len : r.length = guess.length := by
    rw [hr, get_test_response_eq, scorePairs_length, hps_len]
  have hr_ch : ∀ ch ∈ r,
      ch = RESPONSE_RIGHT ∨ ch = RESPONSE_CLOSE ∨ ch = RESPONSE_WRONG := by
    rw [hr, get_test_response_eq]
    exact scorePairs_chars _ _
  have hsome := parseLoop_isSome guess r hr_ch 0 (State.new guess.length) ∅ ∅
  obtain ⟨⟨st1, w, cl⟩, hloop⟩ := Option.isSome_iff_exists.mp hsome
  have hnew_wl : (State.new guess.length).word_length = guess.length := rfl
  have hnew_len : (State.new guess.length).spots.length = guess.length := by
    simp [State.new]
  have hnew_req : (State.new guess.length).required = [] := rfl
  obtain ⟨hwl1, hlen1, _, hat1⟩ :=
    parseLoop_spots guess r 0 (State.new guess.length) ∅ ∅ st1 w cl hloop
  obtain ⟨hnd1, hcnt1⟩ :=
    parseLoop_required guess r hr_ch 0 (State.new guess.length) ∅ ∅ st1 w cl
      hloop
  obtain ⟨hw, hcl⟩ :=
    parseLoop_sets guess r hr_ch 0 (State.new guess.length) ∅ ∅ st1 w cl hloop
      (by rw [hr_len]; omega)
  rw [Finset.empty_union, List.drop_zero] at hw hcl
  have hnd1' : (st1.required.map Prod.fst).Nodup := by
    apply hnd1
    rw [hnew_req]
    simp
  have hcnt1' : ∀ c, getD0 st1.required c
      = (r.zip guess).countP (fun q => isYGmark q.1 && (q.2 == c)) := by
    intro c
    have h0 := hcnt1 (by rw [hr_len]; omega) c
    rw [List.drop_zero, hnew_req] at h0
    simpa [getD0, alookup] using h0
  set cs := ((w \ cl).sort (· ≤ ·)) with hcs
  set st2 := cs.foldl (fun s c => s.mark_wrong_everywhere c) st1 with hst2
  have hparse : parse guess r guess.length = some st2 :=
    parse_run guess r guess.length st1 w cl hr_len hloop
  have hwl2 : st2.word_length = guess.length := by
    rw [hst2, foldl_mwe_word_length, hwl1, hnew_wl]
  have hreq2 : st2.required = st1.required := by
    rw [hst2, foldl_mwe_required]
  have hguessmap : (guess.zip target).map Prod.fst = guess :=
    List.map_fst_zip _ _ (le_of_eq hlen)
  have hzipg : r.zip guess
      = (r.zip (guess.zip target)).map (Prod.map id Prod.fst) := by
    conv_lhs => rw [← hguessmap]
    exact List.zip_map_right _ _ _
  -- every letter purged by `mark_wrong_everywhere` is absent from all
  -- non-exact target positions
  have hpurge : ∀ c ∈ cs, ∀ k, k < guess.length →
      r.getD k 'A' ≠ RESPONSE_RIGHT → target.getD k 'A' ≠ c := by
    intro c hc k hk hnotg
    have hcwcl : c ∈ w \ cl := (Finset.mem_sort _).mp hc
    have hcw : c ∈ w := (Finset.mem_sdiff.mp hcwcl).1
    have hccl : c ∉ cl := (Finset.mem_sdiff.mp hcwcl).2
    rw [hw] at hcw
    rw [hcl] at hccl
    obtain ⟨q, hq, hqmark, hqc⟩ := (mem_marksOf _ _ _).mp hcw
    obtain ⟨q1, qg⟩ := q
    have hq1b : q1 = RESPONSE_WRONG := by
      have hq1r : q1 ∈ r := (List.of_mem_zip hq).1
      rcases hr_ch _ hq1r with h1 | h1 | h1
      · rw [show isWrongMark (q1, qg).1 = isWrongMark q1 from rfl, h1] at hqmark
        exact absurd hqmark (by decide)
      · rw [show isWrongMark (q1, qg).1 = isWrongMark q1 from rfl, h1] at hqmark
        exact absurd hqmark (by decide)
      · exact h1
    obtain ⟨q', hq', hfq⟩ := List.mem_map.mp (hzipg ▸ hq)
    have hq'1 : q'.1 = RESPONSE_WRONG := by
      have hh : q'.1 = q1 := congrArg Prod.fst hfq
      rw [hh]; exact hq1b
    have hq'2 : q'.2.1 = c := by
      have hh : q'.2.1 = qg := congrArg Prod.snd hfq
      rw [hh]
      exact hqc
    have hnoy : ∀ q2 ∈ r.zip (guess.zip target),
        ¬(q2.1 = RESPONSE_CLOSE ∧ q2.2.1 = c) := by
      intro q2 hq2 hq2prop
      apply hccl
      rw [mem_marksOf]
      refine ⟨Prod.map id Prod.fst q2, ?_, ?_, ?_⟩
      · rw [hzipg]
        exact List.mem_map.mpr ⟨q2, hq2, rfl⟩
      · show isCloseMark (Prod.map id Prod.fst q2).1 = true
        have hh : (Prod.map id Prod.fst q2).1 = q2.1 := rfl
        rw [hh, hq2prop.1]
        rfl
      · show (Prod.map id Prod.fst q2).2 = c
        have hh : (Prod.map id Prod.fst q2).2 = q2.2.1 := rfl
        rw [hh]
        exact hq2prop.2
    have hb2 : ∃ q2 ∈ r.zip (guess.zip target),
        q2.1 = RESPONSE_WRONG ∧ q2.2.1 = c := ⟨q', hq', hq'1, hq'2⟩
    have hcount0 := scorePairs_wrong_no_close c (guess.zip target)
      (initialRem (guess.zip target)) hnoy hb2
    rw [initialRem_count] at hcount0
    have hall := List.countP_eq_zero.mp hcount0
    have hkz : k < (guess.zip target).length := by rw [hps_len]; exact hk
    have hmemk := hall ((guess.zip target)[k]) (List.getElem_mem _)
    rw [List.getElem_zip] at hmemk
    simp only [Bool.and_eq_true, Bool.not_eq_true', beq_eq_false_iff_ne,
      beq_iff_eq, not_and] at hmemk
    -- hmemk : guess[k] ≠ target[k] → ¬ target[k] = c  (after normalisation)
    have hne : guess[k] ≠ target[k] := by
      have hiff : (r.getD k 'A' = RESPONSE_RIGHT ↔
          ((guess.zip target).getD k ('A', 'A')).1
            = ((guess.zip target).getD k ('A', 'A')).2) :=
        scorePairs_right_iff (guess.zip target)
          (initialRem (guess.zip target)) k hkz
      intro hh
      apply hnotg
      apply hiff.mpr
      rw [getD_eq_getElem_of_lt _ _ _ hkz, List.getElem_zip]
      exact hh
    have htkc : ¬ target[k] = c := by
      by_cases hgt : guess[k] = target[k]
      · exact absurd hgt hne
      · exact hmemk hgt
    rw [getD_eq_getElem_of_lt _ _ _ (show k < target.length by omega)]
    exact htkc
  have hmem : ∀ idx, idx < target.length →
      target.getD idx 'A' ∈ st2.spots.getD idx ∅ := by
    intro idx hidx
    have hidxg : idx < guess.length := by omega
    have hidxz : idx < (guess.zip target).length := by rw [hps_len]; exact hidxg
    have hspot1 : st1.spots.getD idx ∅
        = markSpot ascii_uppercase (r.getD idx 'A') (guess.getD idx 'A') := by
      have hh := hat1 (by rw [hnew_len, hr_len]; omega) idx
        (by rw [hr_len]; exact hidxg)
      rw [Nat.zero_add] at hh
      rw [hh]
      congr 1
      simp [State.new, List.getD_eq_getElem?_getD,
        List.getElem?_replicate_of_lt hidxg]
    have hiff : (r.getD idx 'A' = RESPONSE_RIGHT ↔
        ((guess.zip target).getD idx ('A', 'A')).1
          = ((guess.zip target).getD idx ('A', 'A')).2) :=
      scorePairs_right_iff (guess.zip target)
        (initialRem (guess.zip target)) idx hidxz
    by_cases hR : r.getD idx 'A' = RESPONSE_RIGHT
    · have hgt : guess.getD idx 'A' = target.getD idx 'A' := by
        have hh := hiff.mp hR
        rw [getD_eq_getElem_of_lt _ _ _ hidxz, List.getElem_zip] at hh
        simp only at hh
        rw [getD_eq_getElem_of_lt _ _ _ hidxg,
          getD_eq_getElem_of_lt _ _ _ (show idx < target.length by omega)]
        exact hh
      have hsing : st1.spots.getD idx ∅ = {target.getD idx 'A'} := by
        rw [hspot1, markSpot, if_pos (Or.inl hR), hgt]
      rw [hst2, foldl_mwe_singleton cs st1 idx _ hsing]
      exact Finset.mem_singleton_self _
    · have hne : guess.getD idx 'A' ≠ target.getD idx 'A' := by
        intro hh
        apply hR
        apply hiff.mpr
        rw [getD_eq_getElem_of_lt _ _ _ hidxz, List.getElem_zip]
        rw [getD_eq_getElem_of_lt _ _ _ hidxg,
          getD_eq_getElem_of_lt _ _ _ (show idx < target.length by omega)] at hh
        exact hh
      have hspot1e : st1.spots.getD idx ∅
          = ascii_uppercase.erase (guess.getD idx 'A') := by
        rw [hspot1, markSpot, if_neg]
        rintro (h | h)
        · exact hR h
        · have hmr : r.getD idx 'A' ∈ r := by
            rw [getD_eq_getElem_of_lt _ _ _ (by rw [hr_len]; exact hidxg)]
            exact List.getElem_mem _
          rcases hr_ch _ hmr with h1 | h1 | h1 <;> rw [h] at h1 <;>
            exact absurd h1 (by decide)
      rw [hst2]
      apply foldl_mwe_mem
      · rw [hspot1e]
        refine Finset.mem_erase.mpr ⟨fun hh => hne hh.symm, ?_⟩
        apply ht
        rw [getD_eq_getElem_of_lt _ _ _ (show idx < target.length by omega)]
        exact List.getElem_mem _
      · intro c hc
        exact hpurge c hc idx hidxg hR
  have hreqall : ∀ p ∈ st2.required, p.2 ≤ target.count p.1 := by
    intro p hp
    rw [hreq2] at hp
    have hval : p.2 = getD0 st1.required p.1 := by
      rw [getD0, alookup_of_mem_nodup hnd1' hp]
      rfl
    rw [hval, hcnt1' p.1]
    have hb := response_marks_le_target guess target hlen p.1
    rw [← hr] at hb
    exact hb
  have hsat : satisfied target st2 = true := by
    rw [satisfied,
      if_neg (show ¬ target.length ≠ st2.word_length by rw [hwl2]; omega),
      Bool.and_eq_true]
    constructor
    · rw [List.all_eq_true]
      intro idx hidx
      rw [decide_eq_true_eq]
      exact hmem idx (List.mem_range.mp hidx)
    · rw [List.all_eq_true]
      intro p hp
      rw [decide_eq_true_eq]
      exact hreqall p hp
  rw [hparse]
  simp only [Option.map_some']
  rw [hsat]

/-! ## Merge and filter lemmas -/

theorem satisfied_eq_true_iff (word : List Char) (st : State) :
    satisfied word st = true ↔
      word.length = st.word_length
      ∧ (∀ idx, idx < word.length → word.getD idx 'A' ∈ st.spots.getD idx ∅)
      ∧ (∀ p ∈ st.required, p.2 ≤ word.count p.1) := by
  rw [satisfied]
  by_cases hl : word.length = st.word_length
  · rw [if_neg (fun hh => hh hl)]
    simp only [Bool.and_eq_true, List.all_eq_true, List.mem_range,
      decide_eq_true_eq]
    constructor
    · intro ⟨h1, h2⟩
      exact ⟨hl, h1, h2⟩
    · intro ⟨_, h1, h2⟩
      exact ⟨h1, h2⟩
  · rw [if_pos hl]
    constructor
    · intro h
      exact absurd h (by simp)
    · intro ⟨h1, _⟩
      exact absurd h1 hl

theorem zipWith_inter_getD_subset_left (l1 l2 : List (Finset Char)) (i : ℕ) :
    (l1.zipWith (fun s o => s ∩ o) l2).getD i ∅ ⊆ l1.getD i ∅ := by
  by_cases hi : i < (l1.zipWith (fun s o => s ∩ o) l2).length
  · have h1 : i < l1.length := by
      rw [List.length_zipWith] at hi
      omega
    rw [getD_eq_getElem_of_lt _ _ _ hi, getD_eq_getElem_of_lt _ _ _ h1,
      List.getElem_zipWith]
    exact Finset.inter_subset_left
  · rw [List.getD_eq_getElem?_getD, List.getElem?_eq_none (by omega)]
    simp

theorem zipWith_inter_getD_subset_right (l1 l2 : List (Finset Char)) (i : ℕ) :
    (l1.zipWith (fun s o => s ∩ o) l2).getD i ∅ ⊆ l2.getD i ∅ := by
  by_cases hi : i < (l1.zipWith (fun s o => s ∩ o) l2).length
  · have h2 : i < l2.length := by
      rw [List.length_zipWith] at hi
      omega
    rw [getD_eq_getElem_of_lt _ _ _ hi, getD_eq_getElem_of_lt _ _ _ h2,
      List.getElem_zipWith]
    exact Finset.inter_subset_right
  · rw [List.getD_eq_getElem?_getD, List.getElem?_eq_none (by omega)]
    simp

theorem fillReq_nodup (bl : List (Char × ℕ)) : ∀ (al : List (Char × ℕ)),
    (al.map Prod.fst).Nodup →
    (((bl.foldl (fun req p => aset req p.1 (max (getD0 req p.1) p.2)) al)).map
      Prod.fst).Nodup := by
  induction bl with
  | nil => intro al h; exact h
  | cons p rest ih =>
    intro al h
    rw [List.foldl_cons]
    exact ih _ (nodup_map_fst_aset _ _ h)

theorem merge_word_length (a b : State) :
    (merge a b).word_length = a.word_length := rfl

theorem merge_required_nodup (a b : State) :
    (((merge a b).required).map Prod.fst).Nodup := by
  have h1 : (merge a b).required
      = b.required.foldl (fun req p => aset req p.1 (max (getD0 req p.1) p.2))
          ((State.new a.word_length).fill a).required := rfl
  rw [h1]
  apply fillReq_nodup
  have h2 : ((State.new a.word_length).fill a).required
      = a.required.foldl (fun req p => aset req p.1 (max (getD0 req p.1) p.2))
          [] := rfl
  rw [h2]
  apply fillReq_nodup
  simp

theorem merge_required_getD0 (a b : State)
    (hra : (a.required.map Prod.fst).Nodup)
    (hrb : (b.required.map Prod.fst).Nodup) (c : Char) :
    getD0 (merge a b).required c
      = max (getD0 a.required c) (getD0 b.required c) := by
  have h3 : getD0 (merge a b).required c
      = max (getD0 ((State.new a.word_length).fill a).required c)
          (getD0 b.required c) :=
    fillReq_getD0 b.required _ hrb c
  have hinner : getD0 ((State.new a.word_length).fill a).required c
      = getD0 a.required c := by
    have h2 : getD0 ((State.new a.word_length).fill a).required c
        = max (getD0 (State.new a.word_length).required c)
            (getD0 a.required c) :=
      fillReq_getD0 a.required _ hra c
    rw [h2]
    have hz : getD0 (State.new a.word_length).required c = 0 := by
      simp [State.new, getD0, alookup]
    rw [hz]
    omega
  rw [h3, hinner]

theorem merge_spots_subset_left (a b : State) (i : ℕ) :
    (merge a b).spots.getD i ∅ ⊆ a.spots.getD i ∅ := by
  have h1 : (merge a b).spots
      = (((State.new a.word_length).fill a).spots).zipWith (fun s o => s ∩ o)
          b.spots := rfl
  have h2 : ((State.new a.word_length).fill a).spots
      = ((State.new a.word_length).spots).zipWith (fun s o => s ∩ o)
          a.spots := rfl
  rw [h1]
  refine subset_trans (zipWith_inter_getD_subset_left _ _ _) ?_
  rw [h2]
  exact zipWith_inter_getD_subset_right _ _ _

theorem getD_zipWith_inter (l1 l2 : List (Finset Char)) (i : ℕ)
    (h1 : i < l1.length) (h2 : i < l2.length) :
    (l1.zipWith (fun s o => s ∩ o) l2).getD i ∅
      = l1.getD i ∅ ∩ l2.getD i ∅ := by
  have hz : i < (l1.zipWith (fun s o => s ∩ o) l2).length := by
    rw [List.length_zipWith]
    omega
  rw [getD_eq_getElem_of_lt _ _ _ hz, getD_eq_getElem_of_lt _ _ _ h1,
    getD_eq_getElem_of_lt _ _ _ h2, List.getElem_zipWith]

theorem merge_spots_getD (a b : State) (i : ℕ)
    (hsa : a.spots.length = a.word_length)
    (hsb : b.spots.length = b.word_length)
    (hwl : a.word_length = b.word_length)
    (halpha : ∀ s ∈ a.spots, s ⊆ ascii_uppercase)
    (hi : i < a.word_length) :
    (merge a b).spots.getD i ∅ = a.spots.getD i ∅ ∩ b.spots.getD i ∅ := by
  have h1 : (merge a b).spots
      = (((State.new a.word_length).fill a).spots).zipWith (fun s o => s ∩ o)
          b.spots := rfl
  have h2 : ((State.new a.word_length).fill a).spots
      = ((State.new a.word_length).spots).zipWith (fun s o => s ∩ o)
          a.spots := rfl
  have hnew_len : (State.new a.word_length).spots.length = a.word_length := by
    simp [State.new]
  have hia : i < a.spots.length := by omega
  have hib : i < b.spots.length := by omega
  have hinner_len : ((State.new a.word_length).fill a).spots.length
      = a.word_length := by
    rw [h2, List.length_zipWith, hnew_len, hsa]
    omega
  rw [h1, getD_zipWith_inter _ _ i (by omega) hib, h2,
    getD_zipWith_inter _ _ i (by omega) hia]
  have hrep : (State.new a.word_length).spots.getD i ∅ = ascii_uppercase := by
    simp [State.new, List.getD_eq_getElem?_getD,
      List.getElem?_replicate_of_lt hi]
  have hsub : a.spots.getD i ∅ ⊆ ascii_uppercase := by
    have hmem : a.spots.getD i ∅ ∈ a.spots := by
      rw [getD_eq_getElem_of_lt _ _ _ hia]
      exact List.getElem_mem _
    exact halpha _ hmem
  rw [hrep, Finset.inter_eq_right.mpr hsub]

theorem satisfied_merge_mono (w : List Char) (s1 x : State)
    (h1 : (s1.required.map Prod.fst).Nodup)
    (hx : (x.required.map Prod.fst).Nodup)
    (hsat : satisfied w (merge s1 x) = true) : satisfied w s1 = true := by
  rw [satisfied_eq_true_iff] at hsat ⊢
  obtain ⟨hl, hspots, hreq⟩ := hsat
  refine ⟨hl.trans (merge_word_length s1 x), ?_, ?_⟩
  · intro idx hidx
    exact merge_spots_subset_left s1 x idx (hspots idx hidx)
  · intro p hp
    have hval : p.2 = getD0 s1.required p.1 := by
      rw [getD0, alookup_of_mem_nodup h1 hp]
      rfl
    have hmax := merge_required_getD0 s1 x h1 hx p.1
    have hmergedall : ∀ c, getD0 (merge s1 x).required c ≤ w.count c := by
      intro c
      cases halo : alookup (merge s1 x).required c with
      | none => simp [getD0, halo]
      | some v =>
        have hm := hreq _ (mem_of_alookup_eq_some halo)
        simpa [getD0, halo] using hm
    have hle := hmergedall p.1
    rw [hmax] at hle
    rw [hval]
    omega

/-! ## Ranking lemmas -/

theorem rank_word_rng_fst (randSeq : List Char → ℕ → ℕ) (rng : GlobalRng)
    (word : List Char) (ws : List (List Char)) :
    (rank_word_rng randSeq rng word ws).1 = rank_word randSeq word ws := rfl

theorem rankLoop_no_heuristic (word : List Char) : ∀ (ts : List (List Char))
    (parts : Finset (List Char)) (ncc : ℕ),
    (rankLoop word false ts parts ncc).1
      = parts ∪ (ts.map (fun t => get_test_response word t)).toFinset := by
  intro ts
  induction ts with
  | nil =>
    intro parts ncc
    simp [rankLoop]
  | cons t rest ih =>
    intro parts ncc
    simp only [rankLoop, Bool.false_and, Bool.false_eq_true, if_false]
    rw [ih]
    rw [List.map_cons, List.toFinset_cons, Finset.insert_union,
      Finset.union_insert]

theorem rank_word_eq_of_small (randSeq : List Char → ℕ → ℕ)
    (word : List Char) (ws : List (List Char))
    (h : ws.length ≤ RANK_HEURISTIC_MIN_COUNT) :
    rank_word randSeq word ws
      = 1 - ((distinctResponses word ws).card : ℚ) / (3 : ℚ) ^ word.length := by
  have hdec : decide (RANK_HEURISTIC_MIN_COUNT < ws.length) = false := by
    simp only [decide_eq_false_iff_not, not_lt]
    exact h
  rw [rank_word]
  simp only [hdec, Bool.false_eq_true, if_false]
  rw [rankLoop_no_heuristic, Finset.empty_union]
  rfl

theorem rank_fold_mem (randSeq : List Char → ℕ → ℕ)
    (remaining : List (List Char)) : ∀ (ws : List (List Char))
    (acc : List (List Char × ℚ) × GlobalRng),
    (∀ p ∈ acc.1, p.2 = pyRound RANK_PRECISION (rank_word randSeq p.1 remaining)) →
    ∀ p ∈ (ws.foldl (fun acc w =>
        let r := rank_word_rng randSeq acc.2 w remaining
        (aset acc.1 w (pyRound RANK_PRECISION r.1), r.2)) acc).1,
      p.2 = pyRound RANK_PRECISION (rank_word randSeq p.1 remaining) := by
  intro ws
  induction ws with
  | nil => intro acc hacc p hp; exact hacc p hp
  | cons u rest ih =>
    intro acc hacc p hp
    rw [List.foldl_cons] at hp
    refine ih _ ?_ p hp
    intro q hq
    have hq2 : q ∈ aset acc.1 u (pyRound RANK_PRECISION
        (rank_word_rng randSeq acc.2 u remaining).1) := hq
    rcases mem_aset_elim hq2 with h | h
    · exact hacc q h
    · rw [h]
      rw [rank_word_rng_fst]

theorem rank_fold_keys (randSeq : List Char → ℕ → ℕ)
    (remaining : List (List Char)) : ∀ (ws : List (List Char))
    (acc : List (List Char × ℚ) × GlobalRng) (w : List Char),
    (w ∈ ws ∨ (alookup acc.1 w).isSome = true) →
    (alookup (ws.foldl (fun acc w =>
        let r := rank_word_rng randSeq acc.2 w remaining
        (aset acc.1 w (pyRound RANK_PRECISION r.1), r.2)) acc).1 w).isSome
      = true := by
  intro ws
  induction ws with
  | nil =>
    intro acc w hw
    rcases hw with h | h
    · cases h
    · exact h
  | cons u rest ih =>
    intro acc w hw
    rw [List.foldl_cons]
    apply ih
    rcases hw with h | h
    · rcases List.mem_cons.mp h with h | h
      · subst h
        right
        have : alookup (aset acc.1 w (pyRound RANK_PRECISION
            (rank_word_rng randSeq acc.2 w remaining).1)) w
            = some (pyRound RANK_PRECISION
              (rank_word_rng randSeq acc.2 w remaining).1) := by
          rw [alookup_aset, if_pos rfl]
        rw [show (alookup ((fun acc w =>
            let r := rank_word_rng randSeq acc.2 w remaining
            (aset acc.1 w (pyRound RANK_PRECISION r.1), r.2)) acc w).1 w)
          = alookup (aset acc.1 w (pyRound RANK_PRECISION
              (rank_word_rng randSeq acc.2 w remaining).1)) w from rfl, this]
        rfl
      · exact Or.inl h
    · right
      have hstep : alookup ((fun acc w =>
          let r := rank_word_rng randSeq acc.2 w remaining
          (aset acc.1 w (pyRound RANK_PRECISION r.1), r.2)) acc u).1 w
          = alookup (aset acc.1 u (pyRound RANK_PRECISION
              (rank_word_rng randSeq acc.2 u remaining).1)) w := rfl
      rw [hstep, alookup_aset]
      rcases eq_or_ne w u with he | he
      · rw [if_pos he]
        rfl
      · rw [if_neg he]
        exact h

theorem rank_words_lookup (randSeq : List Char → ℕ → ℕ)
    (words remaining : List (List Char)) (w : List Char)
    (hw : w ∈ wordSet words remaining) :
    alookup (rank_words randSeq words remaining) w
      = some (pyRound RANK_PRECISION (rank_word randSeq w remaining)) := by
  have hkey : (alookup (rank_words randSeq words remaining) w).isSome = true :=
    rank_fold_keys randSeq remaining (wordSet words remaining)
      ([], ([], 0)) w (Or.inl hw)
  obtain ⟨v, hv⟩ := Option.isSome_iff_exists.mp hkey
  have hmem := mem_of_alookup_eq_some hv
  have hval : (w, v).2 = pyRound RANK_PRECISION (rank_word randSeq w remaining) :=
    rank_fold_mem randSeq remaining (wordSet words remaining) ([], ([], 0))
      (by intro p hp; cases hp) (w, v) hmem
  rw [hv, ← hval]

theorem rank_fold_fst_rng_irrel (randSeq : List Char → ℕ → ℕ)
    (remaining : List (List Char)) : ∀ (ws : List (List Char))
    (acc1 acc2 : List (List Char × ℚ) × GlobalRng), acc1.1 = acc2.1 →
    ((ws.foldl (fun acc w =>
        let r := rank_word_rng randSeq acc.2 w remaining
        (aset acc.1 w (pyRound RANK_PRECISION r.1), r.2)) acc1)).1
      = ((ws.foldl (fun acc w =>
          let r := rank_word_rng randSeq acc.2 w remaining
          (aset acc.1 w (pyRound RANK_PRECISION r.1), r.2)) acc2)).1 := by
  intro ws
  induction ws with
  | nil => intro acc1 acc2 h; exact h
  | cons u rest ih =>
    intro acc1 acc2 h
    rw [List.foldl_cons, List.foldl_cons]
    apply ih
    show aset acc1.1 u (pyRound RANK_PRECISION
        (rank_word_rng randSeq acc1.2 u remaining).1)
      = aset acc2.1 u (pyRound RANK_PRECISION
          (rank_word_rng randSeq acc2.2 u remaining).1)
    rw [rank_word_rng_fst, rank_word_rng_fst, h]

theorem pyRound_mono (n : ℕ) {x y : ℚ} (h : x ≤ y) :
    pyRound n x ≤ pyRound n y := by
  rw [pyRound, pyRound]
  have h10 : (0 : ℚ) < 10 ^ n := by positivity
  rw [div_le_div_iff_of_pos_right h10]
  apply Int.cast_le.mpr
  rw [round_eq, round_eq]
  apply Int.floor_mono
  have := mul_le_mul_of_nonneg_right h (le_of_lt h10)
  linarith

/-! ## Claim theorems -/

/-- C1. Round-trip soundness: for every guess word and target word of the
same length over the uppercase alphabet, the target word satisfies the
Constraint State produced by parsing the oracle's response:
`satisfied(target, parse(guess, get_test_response(guess, target)))`. -/
theorem claim_C1_round_trip_soundness (guess target : List Char)
    (hlen : guess.length = target.length)
    (_hg : ∀ c ∈ guess, c ∈ ascii_uppercase)
    (ht : ∀ c ∈ target, c ∈ ascii_uppercase) :
    (parse guess (get_test_response guess target) guess.length).map
      (fun st => satisfied target st) = some true :=
  parse_oracle_satisfied guess target hlen ht

/-- Witness for C1 at guess CRANE and target TRACE. -/
theorem claim_C1_witness :
    ("CRANE".toList.length = "TRACE".toList.length)
    ∧ (∀ c ∈ "CRANE".toList, c ∈ ascii_uppercase)
    ∧ (∀ c ∈ "TRACE".toList, c ∈ ascii_uppercase)
    ∧ (parse "CRANE".toList
        (get_test_response "CRANE".toList "TRACE".toList)
        "CRANE".toList.length).map
        (fun st => satisfied "TRACE".toList st) = some true :=
  ⟨by decide, by decide, by decide,
    claim_C1_round_trip_soundness _ _ (by decide) (by decide) (by decide)⟩

/-- C2. The oracle on guess CRANE against target TRACE returns, position by
position, close, right, right, wrong, right: the exact pass matches R, A, E
and the presence pass finds C among the remaining target letters and no
N. -/
theorem claim_C2_crane_trace :
    get_test_response "CRANE".toList "TRACE".toList
      = [RESPONSE_CLOSE, RESPONSE_RIGHT, RESPONSE_RIGHT, RESPONSE_WRONG,
          RESPONSE_RIGHT] := by
  decide

/-- C3. Oracle mark-count invariant: for every guess/target pair of equal
length and every letter, the number of positions whose mark is right or
close and whose guess letter is that letter is at most the letter's count
in the target and at most its count in the guess. -/
theorem claim_C3_mark_count_invariant (guess target : List Char)
    (hlen : guess.length = target.length) (c : Char) :
    ((get_test_response guess target).zip guess).countP
        (fun q => isYGmark q.1 && (q.2 == c)) ≤ target.count c
    ∧ ((get_test_response guess target).zip guess).countP
        (fun q => isYGmark q.1 && (q.2 == c)) ≤ guess.count c :=
  ⟨response_marks_le_target guess target hlen c,
    response_marks_le_guess guess target hlen c⟩

/-- Witness for C3 at guess CRANE, target TRACE, letter E. -/
theorem claim_C3_witness :
    ("CRANE".toList.length = "TRACE".toList.length)
    ∧ (((get_test_response "CRANE".toList "TRACE".toList).zip
          "CRANE".toList).countP
        (fun q => isYGmark q.1 && (q.2 == 'E')) ≤ "TRACE".toList.count 'E'
      ∧ ((get_test_response "CRANE".toList "TRACE".toList).zip
          "CRANE".toList).countP
        (fun q => isYGmark q.1 && (q.2 == 'E')) ≤ "CRANE".toList.count 'E') :=
  ⟨by decide, claim_C3_mark_count_invariant _ _ (by decide) 'E'⟩

/-- C4. For two well-formed Constraint States of the same word length,
`merge(a, b)` has, for each letter, the maximum (not the sum) of the two
required counts, and at each position the intersection of the two spot
sets.  (In this pure embedding `merge` builds a fresh state, so the inputs
are unchanged by construction, as in the source, which only mutates the
fresh state.) -/
theorem claim_C4_merge_max_intersect (a b : State)
    (hwl : a.word_length = b.word_length)
    (hsa : a.spots.length = a.word_length)
    (hsb : b.spots.length = b.word_length)
    (hra : (a.required.map Prod.fst).Nodup)
    (hrb : (b.required.map Prod.fst).Nodup)
    (halpha : ∀ s ∈ a.spots, s ⊆ ascii_uppercase) :
    (∀ c, getD0 (merge a b).required c
      = max (getD0 a.required c) (getD0 b.required c))
    ∧ ∀ i, i < a.word_length →
        (merge a b).spots.getD i ∅ = a.spots.getD i ∅ ∩ b.spots.getD i ∅ :=
  ⟨merge_required_getD0 a b hra hrb,
    fun i hi => merge_spots_getD a b i hsa hsb hwl halpha hi⟩

/-- Witness for C4 at two concrete two-letter states. -/
theorem claim_C4_witness :
    ((⟨2, [('A', 1)], [ascii_uppercase, ascii_uppercase.erase 'B']⟩ :
        State).word_length
      = (⟨2, [('B', 2)], [ascii_uppercase.erase 'C', ascii_uppercase]⟩ :
        State).word_length)
    ∧ ((∀ c, getD0 (merge
          ⟨2, [('A', 1)], [ascii_uppercase, ascii_uppercase.erase 'B']⟩
          ⟨2, [('B', 2)], [ascii_uppercase.erase 'C', ascii_uppercase]⟩).required c
        = max (getD0 [('A', 1)] c) (getD0 [('B', 2)] c))
      ∧ ∀ i, i < (2 : ℕ) →
          (merge ⟨2, [('A', 1)], [ascii_uppercase, ascii_uppercase.erase 'B']⟩
            ⟨2, [('B', 2)], [ascii_uppercase.erase 'C', ascii_uppercase]⟩).spots.getD
              i ∅
            = ([ascii_uppercase, ascii_uppercase.erase 'B'] :
                List (Finset Char)).getD i ∅
              ∩ ([ascii_uppercase.erase 'C', ascii_uppercase] :
                List (Finset Char)).getD i ∅) :=
  ⟨rfl, claim_C4_merge_max_intersect _ _ rfl rfl rfl (by decide) (by decide)
    (by decide)⟩

/-- C5. Candidate filtering is idempotent, and monotonic under
merge-refinement: filtering with `merge s1 x` yields a subset of filtering
with `s1` (for well-formed states, whose required dicts have no duplicate
keys). -/
theorem claim_C5_filter_idempotent_monotone (ws : List (List Char))
    (s1 x : State)
    (h1 : (s1.required.map Prod.fst).Nodup)
    (hx : (x.required.map Prod.fst).Nodup) :
    filter_words (filter_words ws s1) s1 = filter_words ws s1
    ∧ ∀ w ∈ filter_words ws (merge s1 x), w ∈ filter_words ws s1 := by
  constructor
  · simp only [filter_words]
    rw [List.filter_filter]
    apply List.filter_congr
    intro w _
    exact Bool.and_self _
  · intro w hw
    rw [filter_words, List.mem_filter] at hw ⊢
    exact ⟨hw.1, satisfied_merge_mono w s1 x h1 hx hw.2⟩

/-- Witness for C5 at a concrete pool and states built by the parser. -/
theorem claim_C5_witness :
    (((⟨2, [('A', 1)], [ascii_uppercase, ascii_uppercase]⟩ :
        State).required.map Prod.fst).Nodup)
    ∧ (((⟨2, [('B', 1)], [ascii_uppercase, ascii_uppercase.erase 'A']⟩ :
        State).required.map Prod.fst).Nodup)
    ∧ (filter_words (filter_words ["AB".toList, "BA".toList, "BB".toList]
          ⟨2, [('A', 1)], [ascii_uppercase, ascii_uppercase]⟩)
          ⟨2, [('A', 1)], [ascii_uppercase, ascii_uppercase]⟩
        = filter_words ["AB".toList, "BA".toList, "BB".toList]
          ⟨2, [('A', 1)], [ascii_uppercase, ascii_uppercase]⟩
      ∧ ∀ w ∈ filter_words ["AB".toList, "BA".toList, "BB".toList]
          (merge ⟨2, [('A', 1)], [ascii_uppercase, ascii_uppercase]⟩
            ⟨2, [('B', 1)], [ascii_uppercase, ascii_uppercase.erase 'A']⟩),
          w ∈ filter_words ["AB".toList, "BA".toList, "BB".toList]
            ⟨2, [('A', 1)], [ascii_uppercase, ascii_uppercase]⟩) :=
  ⟨by decide, by decide,
    claim_C5_filter_idempotent_monotone _ _ _ (by decide) (by decide)⟩

/-- C6 counterexample. With a pool of ten ten-letter targets (within the
sampling threshold), the probe `BZZZZZZZZZ` produces two distinct responses
and `ZZZZZZZZZZ` only one, yet both receive the same score in `rank_words`:
after rounding to four decimal places, both `1 - 2/3 ^ 10` and
`1 - 1/3 ^ 10` become `1.0000`, so the guess with more distinct responses
does not get a strictly lower score. -/
theorem claim_C6_counterexample :
    (distinctResponses "BZZZZZZZZZ".toList roundingPool).card = 2
    ∧ (distinctResponses "ZZZZZZZZZZ".toList roundingPool).card = 1
    ∧ alookup (rank_words (fun _ _ => 0) roundingDict roundingPool)
        "BZZZZZZZZZ".toList
      = alookup (rank_words (fun _ _ => 0) roundingDict roundingPool)
        "ZZZZZZZZZZ".toList := by
  have hc1 : (distinctResponses "BZZZZZZZZZ".toList roundingPool).card = 2 := by
    decide
  have hc2 : (distinctResponses "ZZZZZZZZZZ".toList roundingPool).card = 1 := by
    decide
  refine ⟨hc1, hc2, ?_⟩
  rw [rank_words_lookup (fun _ _ => 0) roundingDict roundingPool
      "BZZZZZZZZZ".toList (by decide),
    rank_words_lookup (fun _ _ => 0) roundingDict roundingPool
      "ZZZZZZZZZZ".toList (by decide),
    rank_word_eq_of_small (fun _ _ => 0) "BZZZZZZZZZ".toList roundingPool
      (by decide),
    rank_word_eq_of_small (fun _ _ => 0) "ZZZZZZZZZZ".toList roundingPool
      (by decide), hc1, hc2,
    show "BZZZZZZZZZ".toList.length = 10 from by decide,
    show "ZZZZZZZZZZ".toList.length = 10 from by decide]
  have hr1 : round ((1 - (2 : ℚ) / 3 ^ 10) * 10 ^ RANK_PRECISION) = 10000 := by
    rw [round_eq, Int.floor_eq_iff]
    constructor
    · rw [RANK_PRECISION]
      norm_num
    · rw [RANK_PRECISION]
      norm_num
  have hr2 : round ((1 - (1 : ℚ) / 3 ^ 10) * 10 ^ RANK_PRECISION) = 10000 := by
    rw [round_eq, Int.floor_eq_iff]
    constructor
    · rw [RANK_PRECISION]
      norm_num
    · rw [RANK_PRECISION]
      norm_num
  rw [pyRound, pyRound]
  push_cast
  rw [hr1, hr2]

/-- C6 (amended). For a target pool within the sampling threshold (100),
the ranked score of a guess equals 1 minus the number of distinct oracle
responses over the pool divided by 3 to the word length, rounded to four
decimal places; a guess producing more distinct responses than another
guess of the same length gets a strictly lower unrounded rank, and a
lower-or-equal (not necessarily strictly lower) rounded score. -/
theorem claim_C6_amended (randSeq : List Char → ℕ → ℕ)
    (words remaining : List (List Char)) (w1 w2 : List Char)
    (hle : remaining.length ≤ RANK_HEURISTIC_MIN_COUNT)
    (hw1 : w1 ∈ wordSet words remaining)
    (hlen : w1.length = w2.length)
    (hgt : (distinctResponses w2 remaining).card
      < (distinctResponses w1 remaining).card) :
    alookup (rank_words randSeq words remaining) w1
      = some (pyRound RANK_PRECISION
          (1 - ((distinctResponses w1 remaining).card : ℚ)
            / (3 : ℚ) ^ w1.length))
    ∧ rank_word randSeq w1 remaining < rank_word randSeq w2 remaining
    ∧ pyRound RANK_PRECISION (rank_word randSeq w1 remaining)
      ≤ pyRound RANK_PRECISION (rank_word randSeq w2 remaining) := by
  have he1 := rank_word_eq_of_small randSeq w1 remaining hle
  have he2 := rank_word_eq_of_small randSeq w2 remaining hle
  have hpow : (0 : ℚ) < (3 : ℚ) ^ w1.length := by positivity
  have hcast : ((distinctResponses w2 remaining).card : ℚ)
      < ((distinctResponses w1 remaining).card : ℚ) := by
    exact_mod_cast hgt
  have hlt : rank_word randSeq w1 remaining < rank_word randSeq w2 remaining := by
    rw [he1, he2, ← hlen]
    apply sub_lt_sub_left
    rw [div_lt_div_iff_of_pos_right hpow]
    exact hcast
  refine ⟨?_, hlt, pyRound_mono _ (le_of_lt hlt)⟩
  rw [rank_words_lookup randSeq words remaining w1 hw1, he1]

/-- Witness for the amended C6 at a three-word pool, where guess CD
produces three distinct responses and guess AB only two. -/
theorem claim_C6_witness :
    (["AB".toList, "CD".toList, "CE".toList].length
        ≤ RANK_HEURISTIC_MIN_COUNT)
    ∧ ("CD".toList ∈ wordSet ["AB".toList, "CD".toList, "CE".toList]
        ["AB".toList, "CD".toList, "CE".toList])
    ∧ ("CD".toList.length = "AB".toList.length)
    ∧ ((distinctResponses "AB".toList
          ["AB".toList, "CD".toList, "CE".toList]).card
        < (distinctResponses "CD".toList
            ["AB".toList, "CD".toList, "CE".toList]).card)
    ∧ (alookup (rank_words (fun _ _ => 0)
          ["AB".toList, "CD".toList, "CE".toList]
          ["AB".toList, "CD".toList, "CE".toList]) "CD".toList
        = some (pyRound RANK_PRECISION
            (1 - ((distinctResponses "CD".toList
                ["AB".toList, "CD".toList, "CE".toList]).card : ℚ)
              / (3 : ℚ) ^ "CD".toList.length))
      ∧ rank_word (fun _ _ => 0) "CD".toList
          ["AB".toList, "CD".toList, "CE".toList]
        < rank_word (fun _ _ => 0) "AB".toList
          ["AB".toList, "CD".toList, "CE".toList]
      ∧ pyRound RANK_PRECISION (rank_word (fun _ _ => 0) "CD".toList
          ["AB".toList, "CD".toList, "CE".toList])
        ≤ pyRound RANK_PRECISION (rank_word (fun _ _ => 0) "AB".toList
            ["AB".toList, "CD".toList, "CE".toList])) :=
  ⟨by decide, by decide, by decide, by decide,
    claim_C6_amended _ _ _ _ _ (by decide) (by decide) (by decide) (by decide)⟩

/-- C7. Determinism of ranking plus selection: with the standard-library
generator modelled as a fixed stream family `randSeq` (a pure function of
the seed word, reseeded at every `shuffle` call), two runs on the same
dictionary, remaining pool and state produce the same ranking and the same
chosen guess regardless of the module-global generator state the run
starts from — in particular also when the sampling heuristic triggers,
because the sample order depends only on the guess word used as seed. -/
theorem claim_C7_determinism (randSeq : List Char → ℕ → ℕ)
    (words remaining : List (List Char)) (rng1 rng2 : GlobalRng) :
    (rank_words_rng randSeq rng1 words remaining).1
      = (rank_words_rng randSeq rng2 words remaining).1
    ∧ choose_word ((rank_words_rng randSeq rng1 words remaining).1)
      = choose_word ((rank_words_rng randSeq rng2 words remaining).1) := by
  have h : (rank_words_rng randSeq rng1 words remaining).1
      = (rank_words_rng randSeq rng2 words remaining).1 :=
    rank_fold_fst_rng_irrel randSeq remaining (wordSet words remaining)
      ([], rng1) ([], rng2) rfl
  exact ⟨h, congrArg choose_word h⟩

/-- C8 (code bug). The "not a word" branch of `play` runs
`words.remove(guess)` and `remaining_words.remove(guess)`; when the guess
was chosen from the full dictionary and is not in the current candidate
pool, the second `remove` raises ValueError (modelled by `none`) instead of
returning to await another guess, contradicting the claimed graceful
dictionary shrinkage.  At the concrete state below the response is the
"not a word" marker, the guess is in the dictionary but not the pool, and
the shrinkage step fails. -/
theorem claim_C8_not_word_value_error :
    is_not_word "what".toList = true
    ∧ "XYZ".toList ∈ ["ABC".toList, "ABD".toList, "XYZ".toList]
    ∧ "XYZ".toList ∉ ["ABC".toList, "ABD".toList]
    ∧ not_word_step ["ABC".toList, "ABD".toList, "XYZ".toList]
        ["ABC".toList, "ABD".toList] "XYZ".toList = none
    ∧ not_word_step ["ABC".toList, "ABD".toList, "XYZ".toList]
        ["ABC".toList, "ABD".toList] "ABD".toList
      = some (["ABC".toList, "XYZ".toList], ["ABC".toList]) := by
  decide

/-- C9 counterexample. On the three-word dictionary `memoWords` with round
budget 3, the code's trie records target CE's win at round 2 beneath the
shared (AB, bb) subtree, whereas the spec-described strategy (reuse an
existing subtree without recursing into it again, `compute_optimal_memo`)
leaves that subtree unchanged and misses the win: the resulting tries are
not the same. -/
theorem claim_C9_counterexample :
    winAt (compute_optimal memoWords 3)
        [("AB".toList, "bb".toList)] "CE".toList "gg".toList = some 2
    ∧ winAt (compute_optimal_memo memoWords 3)
        [("AB".toList, "bb".toList)] "CE".toList "gg".toList = none := by
  decide

/-- C9 (amended). When a later target's exploration reaches a
(guess, response) pair whose subtree was already built during an earlier
target's exploration, `dive` reuses the existing subtree as shared
structure but recurses into it again, extending it in place with the later
target's continuations; skipping that recursion would omit the later
target's winning path.  Concretely: after two targets the (AB, bb) subtree
exists but has no CE win; after the third target explores it, the same
subtree carries CE's win at round 2. -/
theorem claim_C9_amended :
    (subAt memoTrieTwo [("AB".toList, "bb".toList)]).isSome = true
    ∧ winAt memoTrieTwo [("AB".toList, "bb".toList)] "CE".toList "gg".toList
      = none
    ∧ winAt (dive 3 memoTrieTwo memoWords 3
          (fun guess => get_test_response guess "CE".toList) [])
        [("AB".toList, "bb".toList)] "CE".toList "gg".toList = some 2
    ∧ winAt (compute_optimal memoWords 3)
        [("AB".toList, "bb".toList)] "CD".toList "gg".toList = some 2 := by
  decide

/-- C10. Win detection at the oracle: for words of the same length, the
response `get_test_response(guess, target)` is a win (every mark right)
exactly when the guess equals the target. -/
theorem claim_C10_win_iff_equal (guess target : List Char)
    (hlen : guess.length = target.length) :
    (is_win (get_test_response guess target) = true ↔ guess = target) :=
  is_win_oracle_iff guess target hlen

/-- Witness for C10 at TRACE against itself. -/
theorem claim_C10_witness :
    ("TRACE".toList.length = "TRACE".toList.length)
    ∧ (is_win (get_test_response "TRACE".toList "TRACE".toList) = true
        ↔ "TRACE".toList = "TRACE".toList) :=
  ⟨by decide, claim_C10_win_iff_equal _ _ (by decide)⟩

end Wordle
